import Mathlib

/-
Verification of the multi-track student data report pipeline
(src/report_generator.py) against its specification.

The embedding models a pandas DataFrame as a list of indexed rows over a
fixed 15-column schema.  A DataFrame carries the list of columns that are
actually present (`cols`); the cells of absent columns are phantom values
that no operation observes.  Cell values are modelled exactly: strings as
`String`, float64 numbers as `ℚ`, Int64 as `ℤ`, nullable booleans as
`Bool`, and the missing sentinel (NaN / pd.NA) as `Cell.na`.

Rational arithmetic in the executable definitions is implemented through
`mkRat` / `Rat.normalize` (the q-prefixed helpers below) because the
library's `Rat.add`, `Rat.mul`, ... are irreducible and would block kernel
evaluation of concrete instances; the q-helpers are proved equal to the
standard field operations, so all theorems are stated over ordinary `ℚ`
arithmetic.
-/

namespace MTDR

/-! ### Kernel-reducible rational arithmetic -/

/-- Addition on `ℚ` via `mkRat`; equal to `a + b` (see `qadd_eq`). -/
def qadd (a b : ℚ) : ℚ := mkRat (a.num * b.den + b.num * a.den) (a.den * b.den)

/-- Multiplication on `ℚ` via `mkRat`; equal to `a * b` (see `qmul_eq`). -/
def qmul (a b : ℚ) : ℚ := mkRat (a.num * b.num) (a.den * b.den)

/-- Subtraction on `ℚ` via `mkRat`; equal to `a - b` (see `qsub_eq`). -/
def qsub (a b : ℚ) : ℚ := qadd a (mkRat (-b.num) b.den)

/-- Division of a rational by a natural via `mkRat`; equal to `a / n`. -/
def qdivNat (a : ℚ) (n : ℕ) : ℚ := mkRat a.num (a.den * n)

/-- Multiplication of a rational by a natural via `mkRat`; equal to `a * n`. -/
def qmulNat (a : ℚ) (n : ℕ) : ℚ := mkRat (a.num * n) a.den

/-- Sum of a list of rationals via `qadd`; equal to `l.sum`. -/
def qsum : List ℚ → ℚ
  | [] => 0
  | a :: l => qadd a (qsum l)

/-- Floor of a rational, computed from its reduced numerator and
denominator exactly as `Rat.floor` does. -/
def qfloor (a : ℚ) : ℤ := a.num / a.den

theorem qadd_eq (a b : ℚ) : qadd a b = a + b := by
  have ha : ((a.den : ℚ)) ≠ 0 := by positivity
  have hb : ((b.den : ℚ)) ≠ 0 := by positivity
  unfold qadd
  rw [Rat.mkRat_eq_div]
  push_cast
  conv_rhs => rw [← Rat.num_div_den a, ← Rat.num_div_den b]
  field_simp

theorem qmul_eq (a b : ℚ) : qmul a b = a * b := by
  have ha : ((a.den : ℚ)) ≠ 0 := by positivity
  have hb : ((b.den : ℚ)) ≠ 0 := by positivity
  unfold qmul
  rw [Rat.mkRat_eq_div]
  push_cast
  conv_rhs => rw [← Rat.num_div_den a, ← Rat.num_div_den b]
  field_simp

theorem qsub_eq (a b : ℚ) : qsub a b = a - b := by
  have hb : ((b.den : ℚ)) ≠ 0 := by positivity
  unfold qsub
  rw [qadd_eq, Rat.mkRat_eq_div]
  push_cast
  rw [neg_div, Rat.num_div_den]
  ring

theorem qsum_eq (l : List ℚ) : qsum l = l.sum := by
  induction l with
  | nil => rfl
  | cons a l ih => rw [qsum, qadd_eq, ih, List.sum_cons]

theorem qdivNat_eq (a : ℚ) (n : ℕ) : qdivNat a n = a / n := by
  have ha : ((a.den : ℚ)) ≠ 0 := by positivity
  unfold qdivNat
  rw [Rat.mkRat_eq_div]
  push_cast
  conv_rhs => rw [← Rat.num_div_den a]
  rw [div_div]

theorem qmulNat_eq (a : ℚ) (n : ℕ) : qmulNat a n = a * n := by
  have ha : ((a.den : ℚ)) ≠ 0 := by positivity
  unfold qmulNat
  rw [Rat.mkRat_eq_div]
  push_cast
  conv_rhs => rw [← Rat.num_div_den a]
  rw [div_mul_eq_mul_div]

theorem qfloor_eq (a : ℚ) : qfloor a = ⌊a⌋ := (Rat.floor_def).symm

theorem mkRat_intCast_div (z : ℤ) (n : ℕ) : mkRat z n = (z : ℚ) / n :=
  Rat.mkRat_eq_div z n

/-! ### Python string primitives -/

/-- Python `str.strip`: drop leading and trailing whitespace. -/
def pyStrip (s : String) : String :=
  ⟨((s.data.dropWhile Char.isWhitespace).reverse.dropWhile Char.isWhitespace).reverse⟩

/-- Python `str.upper` restricted to the ASCII/latin letters that occur in
the boolean decoding table. -/
def pyUpper (s : String) : String := ⟨s.data.map Char.toUpper⟩

/-- Helper for `pyTitle`: uppercase a letter that follows a non-letter,
lowercase a letter that follows a letter; the flag records whether the
previous character was a letter. -/
def titleAux : Bool → List Char → List Char
  | _, [] => []
  | prev, c :: cs =>
    (if c.isAlpha then (if prev then c.toLower else c.toUpper) else c) ::
      titleAux c.isAlpha cs

/-- Python `str.title` as used by `pandas.Series.str.title`. -/
def pyTitle (s : String) : String := ⟨titleAux false s.data⟩

/-- Boolean lexicographic order on character lists (by code point), the
order Python uses to compare strings.  `String`'s library order is
equivalent but its comparison function does not reduce in the kernel. -/
def lexLe : List Char → List Char → Bool
  | [], _ => true
  | _ :: _, [] => false
  | a :: as, b :: bs =>
    if a.toNat < b.toNat then true
    else if b.toNat < a.toNat then false
    else lexLe as bs

/-- String order used for pandas groupby key sorting. -/
def strle (a b : String) : Prop := lexLe a.data b.data = true

instance strleDecidable : DecidableRel strle := fun a b =>
  inferInstanceAs (Decidable (lexLe a.data b.data = true))

/-! ### Numeric parsing (`pd.to_numeric(errors="coerce")` on strings) -/

/-- Value of a digit run, most significant first. -/
def digitsVal (l : List Char) : ℕ := l.foldl (fun acc c => acc * 10 + (c.toNat - 48)) 0

/-- Parse an optionally signed decimal literal `[+-]?digits[.digits]?`
(either digit group may be empty but not both), as Python float
conversion does for the inputs this dataset contains; anything else
coerces to missing.  Exotic float syntax (exponents, inf, nan) also ends
up missing through the same `none` result. -/
def parseNumber (s : String) : Option ℚ :=
  let t := (pyStrip s).data
  let (sgn, u) : ℤ × List Char :=
    match t with
    | '-' :: r => (-1, r)
    | '+' :: r => (1, r)
    | r => (1, r)
  let ip := u.takeWhile (fun c => c ≠ '.')
  let rest := u.dropWhile (fun c => c ≠ '.')
  let fp := match rest with
    | [] => some []
    | '.' :: r => some r
    | _ => none
  match fp with
  | none => none
  | some fp =>
    if ip.all Char.isDigit ∧ fp.all Char.isDigit ∧ (ip ≠ [] ∨ fp ≠ []) then
      some (mkRat (sgn * (digitsVal ip * 10 ^ fp.length + digitsVal fp)) (10 ^ fp.length))
    else none

/-! ### Cells, columns, rows, frames -/

/-- A single cell value.  `na` is the missing sentinel (NaN / pd.NA);
`num` is a float64 value modelled exactly; `int` a nullable Int64 value;
`bool` a nullable boolean. -/
inductive Cell where
  | na : Cell
  | str : String → Cell
  | num : ℚ → Cell
  | int : ℤ → Cell
  | bool : Bool → Cell
deriving DecidableEq

/-- The column schema of the student dataset (§3 of the spec). -/
inductive Col where
  | studentID | term | track | cohort | className | firstName | lastName
  | incomeStudent | math | english | science | history | attendance
  | projectScore | passed
deriving DecidableEq

/-- One row of the dataset: a cell for each schema column.  Cells of
columns that are not present in the frame are phantom values that no
operation observes. -/
structure Row where
  studentID : Cell
  term : Cell
  track : Cell
  cohort : Cell
  className : Cell
  firstName : Cell
  lastName : Cell
  incomeStudent : Cell
  math : Cell
  english : Cell
  science : Cell
  history : Cell
  attendance : Cell
  projectScore : Cell
  passed : Cell
deriving DecidableEq

/-- Read the cell of a column. -/
def Row.get (r : Row) : Col → Cell
  | .studentID => r.studentID
  | .term => r.term
  | .track => r.track
  | .cohort => r.cohort
  | .className => r.className
  | .firstName => r.firstName
  | .lastName => r.lastName
  | .incomeStudent => r.incomeStudent
  | .math => r.math
  | .english => r.english
  | .science => r.science
  | .history => r.history
  | .attendance => r.attendance
  | .projectScore => r.projectScore
  | .passed => r.passed

/-- Replace the cell of a column. -/
def Row.set (r : Row) : Col → Cell → Row
  | .studentID, v => { r with studentID := v }
  | .term, v => { r with term := v }
  | .track, v => { r with track := v }
  | .cohort, v => { r with cohort := v }
  | .className, v => { r with className := v }
  | .firstName, v => { r with firstName := v }
  | .lastName, v => { r with lastName := v }
  | .incomeStudent, v => { r with incomeStudent := v }
  | .math, v => { r with math := v }
  | .english, v => { r with english := v }
  | .science, v => { r with science := v }
  | .history, v => { r with history := v }
  | .attendance, v => { r with attendance := v }
  | .projectScore, v => { r with projectScore := v }
  | .passed, v => { r with passed := v }

theorem Row.get_set (r : Row) (c : Col) (v : Cell) (d : Col) :
    (r.set c v).get d = if d = c then v else r.get d := by
  cases c <;> cases d <;> simp [Row.get, Row.set]

theorem Row.get_set_self (r : Row) (c : Col) (v : Cell) :
    (r.set c v).get c = v := by
  rw [Row.get_set]; simp

theorem Row.get_set_ne (r : Row) (c : Col) (v : Cell) (d : Col) (h : d ≠ c) :
    (r.set c v).get d = r.get d := by
  rw [Row.get_set]; simp [h]

/-- A DataFrame: the set of present columns, and the rows, each carrying
its positional index (the pandas index). -/
structure DF where
  cols : List Col
  rows : List (ℕ × Row)
deriving DecidableEq

/-! ### The cleaning pipeline (`clean_df`) -/

/-- The raw values that `df.replace(SPECIAL_NULLS, pd.NA)` turns into
missing, exactly as listed in the source. -/
def SPECIAL_NULLS : List String :=
  ["", " ", "NA", "N/A", "n/a", "NaN", "-", "Waived", "None", "null"]

/-- The boolean decoding table of the source (`BOOL_MAP`). -/
def BOOL_MAP : List (String × Bool) :=
  [("TRUE", true), ("FALSE", false), ("Y", true), ("N", false),
   ("YES", true), ("NO", false), ("1", true), ("0", false),
   ("1.0", true), ("0.0", false)]

/-- Association-list lookup by string equality (the kernel-reducible
counterpart of dict lookup / `Series.map`). -/
def lookupStr : List (String × Bool) → String → Option Bool
  | [], _ => none
  | (k, b) :: rest, s => if s = k then some b else lookupStr rest s

/-- Cell-level effect of `df.replace(SPECIAL_NULLS, pd.NA)`: an exact
string match against the special-null list becomes missing. -/
def replaceCell (v : Cell) : Cell :=
  match v with
  | .str s => if s ∈ SPECIAL_NULLS then .na else .str s
  | v => v

/-- Whole-row effect of the replace step (it applies to every column of
the frame). -/
def replaceRow (r : Row) : Row where
  studentID := replaceCell r.studentID
  term := replaceCell r.term
  track := replaceCell r.track
  cohort := replaceCell r.cohort
  className := replaceCell r.className
  firstName := replaceCell r.firstName
  lastName := replaceCell r.lastName
  incomeStudent := replaceCell r.incomeStudent
  math := replaceCell r.math
  english := replaceCell r.english
  science := replaceCell r.science
  history := replaceCell r.history
  attendance := replaceCell r.attendance
  projectScore := replaceCell r.projectScore
  passed := replaceCell r.passed

/-- String form of a cell, as `astype("string")` produces it (missing
stays missing and is handled by the callers). -/
def cellToString : Cell → String
  | .na => ""
  | .str s => s
  | .num q => if q.den = 1 then toString q.num ++ ".0" else toString q
  | .int n => toString n
  | .bool b => if b then "True" else "False"

/-- Cell-level effect of `.astype("string").str.strip().str.title()`. -/
def normStrCell (v : Cell) : Cell :=
  match v with
  | .na => .na
  | v => .str (pyTitle (pyStrip (cellToString v)))

/-- Cell-level regex validation (`Class` / `Cohort` format checks): a
string that fails the predicate becomes missing; missing stays missing.
After the normalization step these columns only hold strings or missing,
so the fall-through branch is never reached by the pipeline. -/
def validateFmtCell (p : String → Bool) (v : Cell) : Cell :=
  match v with
  | .str s => if p s then .str s else .na
  | .na => .na
  | v => v

/-- Required format of `Class`: regex `\d{2}[A-Za-z]`. -/
def classFmt (s : String) : Bool :=
  match s.data with
  | [a, b, c] => a.isDigit && b.isDigit && c.isAlpha
  | _ => false

/-- Required format of `Cohort`: regex `\d{2}-\d{2}`. -/
def cohortFmt (s : String) : Bool :=
  match s.data with
  | [a, b, c, d, e] => a.isDigit && b.isDigit && c = '-' && d.isDigit && e.isDigit
  | _ => false

/-- Cell-level effect of `pd.to_numeric(-, errors="coerce")`. -/
def toNumericCell : Cell → Cell
  | .na => .na
  | .num q => .num q
  | .int n => .num n
  | .bool b => .num (if b then 1 else 0)
  | .str s =>
    match parseNumber s with
    | some q => .num q
    | none => .na

/-- Cell-level effect of `pd.to_numeric(-, errors="coerce").astype("Int64")`:
the cast raises (`none`) on a non-integral float. -/
def intCastCell (v : Cell) : Option Cell :=
  match toNumericCell v with
  | .na => some .na
  | .num q => if q.den = 1 then some (.int q.num) else none
  | _ => none

/-- Cell-level effect of the `StudentID` validation
`df.loc[~df.StudentID.astype(str).str.fullmatch(r'\d{4}'), 'StudentID'] = pd.NA`:
the decimal numeral of an Int64 value is exactly four digits iff the value
lies in [1000, 9999] (integer formatting never pads with zeros and a sign
character is not a digit); everything else, including missing, fails the
match and becomes missing. -/
def sidCheckCell : Cell → Cell
  | .int n => if 1000 ≤ n ∧ n ≤ 9999 then .int n else .na
  | _ => .na

/-- Cell-level effect of `df.loc[~df.Term.isin([1, 2]), 'Term'] = pd.NA`. -/
def termCheckCell : Cell → Cell
  | .int n => if n = 1 ∨ n = 2 then .int n else .na
  | _ => .na

/-- Cell-level effect of the score range filter
`df.loc[(df[c] < 0) | (df[c] > 100), c] = pd.NA` (comparisons with missing
are false, so missing stays missing). -/
def rangeFilterCell : Cell → Cell
  | .num q => if q < 0 ∨ 100 < q then .na else .num q
  | v => v

/-- Combined per-cell effect of lines 61-62 of the source on a score
column: numeric coercion followed by the range filter. -/
def scoreCleanCell (v : Cell) : Cell := rangeFilterCell (toNumericCell v)

/-- Cell-level effect of boolean decoding
`astype("string").str.upper().str.strip().map(BOOL_MAP).astype("boolean")`. -/
def decodeBoolCell (v : Cell) : Cell :=
  match v with
  | .na => .na
  | v =>
    match lookupStr BOOL_MAP (pyStrip (pyUpper (cellToString v))) with
    | some b => .bool b
    | none => .na

/-- Map a frame row-wise, keeping each row's index. -/
def DF.mapRows (df : DF) (f : Row → Row) : DF :=
  ⟨df.cols, df.rows.map (fun p => (p.1, f p.2))⟩

/-- Apply a cell function to one column of every row. -/
def DF.mapCell (df : DF) (c : Col) (f : Cell → Cell) : DF :=
  df.mapRows (fun r => r.set c (f (r.get c)))

/-- Apply a cell function to a column when the column is present,
mirroring the source's `if c in df` guards; absent columns are skipped. -/
def applyCol (df : DF) (c : Col) (f : Cell → Cell) : DF :=
  if c ∈ df.cols then df.mapCell c f else df

/-- Fallible row traversal (for the Int64 cast, whose failure models a
raised exception). -/
def mapPairsM (f : ℕ × Row → Option (ℕ × Row)) : List (ℕ × Row) → Option (List (ℕ × Row))
  | [] => some []
  | p :: ps =>
    match f p, mapPairsM f ps with
    | some q, some qs => some (q :: qs)
    | _, _ => none

/-- Apply a fallible cell function to a column when present. -/
def applyColM (df : DF) (c : Col) (f : Cell → Option Cell) : Option DF :=
  if c ∈ df.cols then
    match mapPairsM (fun p => (f (p.2.get c)).map (fun v => (p.1, p.2.set c v))) df.rows with
    | some rows => some ⟨df.cols, rows⟩
    | none => none
  else some df

/-- Valid values of column `c` among the rows whose `Track` cell equals
`k` (the inputs to `groupby('Track')[c].transform('mean')`). -/
def groupScoreVals (rows : List (ℕ × Row)) (c : Col) (k : Cell) : List ℚ :=
  rows.filterMap (fun p =>
    if p.2.track = k then
      match p.2.get c with
      | .num q => some q
      | _ => none
    else none)

/-- Round-half-to-even of a rational to an integer (the rounding of
`round` / `numpy.round` on exact values). -/
def roundHE (q : ℚ) : ℤ :=
  let f := qfloor q
  let h : ℚ := mkRat (2 * f + 1) 2
  if q < h then f else if h < q then f + 1 else if 2 ∣ f then f else f + 1

/-- Rounding to one decimal place (`round(-, 1)`). -/
def round1 (q : ℚ) : ℚ := mkRat (roundHE (qmulNat q 10)) 10

/-- Group-mean imputation of one score column (lines 63-64 of the
source): a missing cell of a row in a non-missing `Track` group is filled
with the group mean of the valid values, rounded to one decimal; rows
with missing `Track` and groups with no valid values stay missing. -/
def imputeScoreCol (df : DF) (c : Col) : DF :=
  ⟨df.cols, df.rows.map (fun p =>
    if p.2.get c = .na then
      (p.1, p.2.set c (
        if p.2.track = .na then .na
        else
          match groupScoreVals df.rows c p.2.track with
          | [] => .na
          | vs => .num (round1 (qdivNat (qsum vs) vs.length))))
    else p)⟩

/-- One iteration of the score-column loop (lines 59-64): skip if the
column is absent; coerce and range-filter, then impute by track mean.
The `groupby('Track')` raises when the `Track` column is absent. -/
def scoreStep (df : DF) (c : Col) : Option DF :=
  if c ∈ df.cols then
    if Col.track ∈ df.cols then some (imputeScoreCol (df.mapCell c scoreCleanCell) c)
    else none
  else some df

/-- Decoded boolean values of column `c` among the rows of group `k`. -/
def groupBoolVals (rows : List (ℕ × Row)) (c : Col) (k : Cell) : List Bool :=
  rows.filterMap (fun p =>
    if p.2.track = k then
      match p.2.get c with
      | .bool b => some b
      | _ => none
    else none)

/-- Per-track mode imputation of one boolean column (lines 72-73):
`x.mode(dropna=True)` returns the modal values in ascending order
(`false` before `true`), and `.iloc[0]` picks the first, so a tie is
resolved to `false`; an empty mode leaves the cell missing. -/
def imputeBoolCol (df : DF) (c : Col) : DF :=
  ⟨df.cols, df.rows.map (fun p =>
    if p.2.get c = .na then
      (p.1, p.2.set c (
        if p.2.track = .na then .na
        else
          match groupBoolVals df.rows c p.2.track with
          | [] => .na
          | vs => .bool (decide (vs.count false < vs.count true))))
    else p)⟩

/-- One iteration of the boolean-column loop (lines 68-73). -/
def boolStep (df : DF) (c : Col) : Option DF :=
  if c ∈ df.cols then
    if Col.track ∈ df.cols then some (imputeBoolCol (df.mapCell c decodeBoolCell) c)
    else none
  else some df

/-- A row is complete when no present column holds a missing value. -/
def rowComplete (cols : List Col) (r : Row) : Bool :=
  cols.all (fun c => decide (r.get c ≠ .na))

/-- The completeness filter `df.dropna()`. -/
def dropnaDF (df : DF) : DF :=
  ⟨df.cols, df.rows.filter (fun p => rowComplete df.cols p.2)⟩

/-- The full cleaning pipeline `clean_df`, with the two column loops of
the source unrolled over their literal column lists.  The result is
`none` when the code would raise: a non-integral float reaching the
Int64 cast, or a score/boolean column present while `Track` is absent
(the `groupby('Track')` lookup). -/
def cleanDf (df : DF) : Option DF := do
  let d1 := df.mapRows replaceRow
  let d2 := applyCol d1 .firstName normStrCell
  let d3 := applyCol d2 .lastName normStrCell
  let d4 := applyCol d3 .className normStrCell
  let d5 := applyCol d4 .cohort normStrCell
  let d6 := applyCol d5 .track normStrCell
  let d7 := applyCol d6 .className (validateFmtCell classFmt)
  let d8 := applyCol d7 .cohort (validateFmtCell cohortFmt)
  let d9 ← applyColM d8 .studentID intCastCell
  let d10 ← applyColM d9 .term intCastCell
  let d11 := applyCol d10 .studentID sidCheckCell
  let d12 := applyCol d11 .term termCheckCell
  let d13 ← scoreStep d12 .math
  let d14 ← scoreStep d13 .english
  let d15 ← scoreStep d14 .science
  let d16 ← scoreStep d15 .history
  let d17 ← scoreStep d16 .attendance
  let d18 ← scoreStep d17 .projectScore
  let d19 ← boolStep d18 .incomeStudent
  let d20 ← boolStep d19 .passed
  return dropnaDF d20

/-! ### Deduplication (`drop_duplicates`) -/

/-- The composite identity key of a row. -/
def dupKey (r : Row) : Cell × Cell × Cell := (r.studentID, r.term, r.track)

/-- The `df.sort_index()` step: stable sort of the rows by index. -/
def sortIdx (rows : List (ℕ × Row)) : List (ℕ × Row) :=
  List.insertionSort (fun p q => p.1 ≤ q.1) rows

/-- Keep the first row of each identity key
(`drop_duplicates(subset=['StudentID', 'Term', 'Track'], keep='first')`);
`seen` accumulates the keys already kept. -/
def keepFirst : List (ℕ × Row) → List (Cell × Cell × Cell) → List (ℕ × Row)
  | [], _ => []
  | p :: ps, seen =>
    if dupKey p.2 ∈ seen then keepFirst ps seen
    else p :: keepFirst ps (dupKey p.2 :: seen)

/-- The `drop_duplicates` function of the source.  The guard mirrors
`{'StudentID','Term'}.issubset(df.columns)`; when it holds but `Track` is
absent, `drop_duplicates(subset=[...,'Track'])` raises (`none`). -/
def dropDuplicates (df : DF) : Option DF :=
  if Col.studentID ∈ df.cols ∧ Col.term ∈ df.cols then
    if Col.track ∈ df.cols then some ⟨df.cols, keepFirst (sortIdx df.rows) []⟩
    else none
  else some df

/-! ### Track-level summary statistics (`TrackStatistics`) -/

/-- The non-missing `Track` strings of the frame, in row order.  After
cleaning, `Track` cells are strings or missing, so these are exactly the
groupby keys (`groupby` drops missing keys by default). -/
def trackStrs (df : DF) : List String :=
  df.rows.filterMap (fun p =>
    match p.2.track with
    | .str s => some s
    | _ => none)

/-- Distinct values in order of first appearance. -/
def distinctAux : List String → List String → List String
  | [], _ => []
  | s :: rest, seen =>
    if s ∈ seen then distinctAux rest seen
    else s :: distinctAux rest (s :: seen)

/-- Distinct values of a string list, first-appearance order. -/
def distinctFirst (l : List String) : List String := distinctAux l []

/-- The groupby keys in the order pandas emits them: ascending sorted
order of the key (`groupby(sort=True)`, the default). -/
def sortedTracks (df : DF) : List String :=
  List.insertionSort strle (distinctFirst (trackStrs df))

/-- Descending-count order on the rows of a counts table. -/
def cntGe (a b : String × ℕ) : Prop := b.2 ≤ a.2

instance cntGeDecidable : DecidableRel cntGe := fun a b => Nat.decLe b.2 a.2

/-- The `nb_students` table:
`df['Track'].value_counts()` lists the distinct keys with their counts
sorted by descending count; it raises when the column is absent. -/
def nbStudents (df : DF) : Option (List (String × ℕ)) :=
  if Col.track ∈ df.cols then
    some (List.insertionSort cntGe
      ((distinctFirst (trackStrs df)).map
        (fun s => (s, (trackStrs df).countP (fun t => decide (t = s))))))
  else none

/-- Valid numeric values of column `c` in track group `t`. -/
def groupNums (df : DF) (c : Col) (t : String) : List ℚ :=
  groupScoreVals df.rows c (.str t)

/-- Group mean as a cell: missing when the group has no valid values
(`mean` of an all-missing group is NaN). -/
def meanCell (l : List ℚ) : Cell :=
  match l with
  | [] => .na
  | l => .num (qdivNat (qsum l) l.length)

/-- A single-column per-track mean table
(`df.groupby('Track')[c].mean()`), keys in ascending order; raises when
either column is absent. -/
def avgByTrack (df : DF) (c : Col) : Option (List (String × Cell)) :=
  if Col.track ∈ df.cols ∧ c ∈ df.cols then
    some ((sortedTracks df).map (fun t => (t, meanCell (groupNums df c t))))
  else none

/-- The `avg_scores` table over the four subject columns. -/
def avgScores (df : DF) : Option (List (String × Cell × Cell × Cell × Cell)) :=
  if Col.track ∈ df.cols ∧ Col.math ∈ df.cols ∧ Col.english ∈ df.cols ∧
      Col.science ∈ df.cols ∧ Col.history ∈ df.cols then
    some ((sortedTracks df).map (fun t =>
      (t, meanCell (groupNums df .math t), meanCell (groupNums df .english t),
        meanCell (groupNums df .science t), meanCell (groupNums df .history t))))
  else none

/-- Decoded boolean values of `Passed (Y/N)` in track group `t`. -/
def groupPassVals (df : DF) (t : String) : List Bool :=
  groupBoolVals df.rows .passed (.str t)

/-- The `pass_rate` table: per-track mean of the boolean column times
100 (`groupby('Track')['Passed (Y/N)'].mean() * 100`). -/
def passRate (df : DF) : Option (List (String × Cell)) :=
  if Col.track ∈ df.cols ∧ Col.passed ∈ df.cols then
    some ((sortedTracks df).map (fun t =>
      (t,
        match groupPassVals df t with
        | [] => Cell.na
        | l => Cell.num (mkRat (100 * l.count true) l.length))))
  else none

/-! ### The attendance/project correlation table

`corr_attendance_project` iterates `groupby('Track', dropna=False)` (so a
missing-track group is included, last), computes the Pearson correlation
of `Attendance (%)` and `ProjectScore` over the pairwise-complete
observations of each group, and multiplies by 100; `compute_all_stats`
then rounds to one decimal.  With `n` observations, `Sx = Σx`,
`Sxx = nΣx² - Sx²` (and similarly `Syy`, `Sxy = nΣxy - SxSy`), the
Pearson coefficient is `Sxy / √(Sxx·Syy)`; it is NaN exactly when
`n < 2` or one of the variances is zero (then `Sxy = 0` too, giving 0/0).
The rounded value `round(100·r, 1)` is computed exactly by integer
arithmetic (`roundHEDivSqrt`), which the theorems relate to the real
number `Sxy / √(Sxx·Syy)`. -/

/-- Pairwise-complete (attendance, project) observations of the group
with `Track` cell `k`. -/
def corrPairs (df : DF) (k : Cell) : List (ℚ × ℚ) :=
  df.rows.filterMap (fun p =>
    if p.2.track = k then
      match p.2.attendance, p.2.projectScore with
      | .num a, .num b => some (a, b)
      | _, _ => none
    else none)

/-- Group keys of `groupby('Track', dropna=False)`: sorted string keys,
then the missing-key group when present. -/
def corrKeys (df : DF) : List Cell :=
  (sortedTracks df).map Cell.str ++
    (if df.rows.any (fun p => decide (p.2.track = .na)) then [Cell.na] else [])

/-- Sum of the first components. -/
def sumFst (g : List (ℚ × ℚ)) : ℚ := qsum (g.map Prod.fst)

/-- Sum of the second components. -/
def sumSnd (g : List (ℚ × ℚ)) : ℚ := qsum (g.map Prod.snd)

/-- Scaled second moment `n·Σx² - (Σx)²` of the first components. -/
def qSxx (g : List (ℚ × ℚ)) : ℚ :=
  qsub (qmulNat (qsum (g.map (fun p => qmul p.1 p.1))) g.length) (qmul (sumFst g) (sumFst g))

/-- Scaled second moment of the second components. -/
def qSyy (g : List (ℚ × ℚ)) : ℚ :=
  qsub (qmulNat (qsum (g.map (fun p => qmul p.2 p.2))) g.length) (qmul (sumSnd g) (sumSnd g))

/-- Scaled mixed moment `n·Σxy - ΣxΣy`. -/
def qSxy (g : List (ℚ × ℚ)) : ℚ :=
  qsub (qmulNat (qsum (g.map (fun p => qmul p.1 p.2))) g.length) (qmul (sumFst g) (sumSnd g))

/-- Floor of `A / √D` for rationals `A` and `D > 0`, by integer
arithmetic: with `A = An/Ad` and `D = Dn/Dd`, the value equals
`±√K / m` for `K = An²·Dn·Dd` and `m = Ad·Dn`. -/
def floorDivSqrt (A D : ℚ) : ℤ :=
  let m : ℕ := A.den * D.num.toNat
  let K : ℕ := A.num.natAbs ^ 2 * (D.num.toNat * D.den)
  let s : ℕ := Nat.sqrt K
  if 0 ≤ A.num then (s / m : ℕ)
  else if s * s = K ∧ m ∣ s then -((s / m : ℕ) : ℤ)
  else -((s / m : ℕ) : ℤ) - 1

/-- Three-way comparison of `A / √D` with a rational `t` (for `D > 0`),
by sign analysis and squaring. -/
def cmpDivSqrt (A D t : ℚ) : Ordering :=
  if A < 0 ∧ 0 ≤ t then .lt
  else if 0 ≤ A ∧ t < 0 then .gt
  else if 0 ≤ A then compare (A ^ 2) (t ^ 2 * D)
  else compare (t ^ 2 * D) (A ^ 2)

/-- Round-half-to-even of `A / √D` (for `D > 0`), by exact integer
arithmetic. -/
def roundHEDivSqrt (A D : ℚ) : ℤ :=
  let f := floorDivSqrt A D
  match cmpDivSqrt A D (mkRat (2 * f + 1) 2) with
  | .lt => f
  | .gt => f + 1
  | .eq => if 2 ∣ f then f else f + 1

/-- The correlation cell of one group, already times 100 and rounded to
one decimal (the rounding `compute_all_stats._round_numeric` applies):
NaN when the group has fewer than two observations or zero variance in
either variable, otherwise `round(100 · Sxy/√(Sxx·Syy), 1)`. -/
def corrCellOf (g : List (ℚ × ℚ)) : Cell :=
  if g.length < 2 ∨ qSxx g = 0 ∨ qSyy g = 0 then .na
  else .num (mkRat (roundHEDivSqrt (qmulNat (qSxy g) 1000) (qmul (qSxx g) (qSyy g))) 10)

/-- The `Track - Corr (%)` table of the report: one row per group key of
`groupby('Track', dropna=False)`, with the rounded correlation cell. -/
def trackCorrTable (df : DF) : Option (List (Cell × Cell)) :=
  if Col.track ∈ df.cols ∧ Col.attendance ∈ df.cols ∧ Col.projectScore ∈ df.cols then
    some ((corrKeys df).map (fun k => (k, corrCellOf (corrPairs df k))))
  else none

/-- Round-half-to-even of a real number, the idealized semantics of
`numpy.round` used to state what the rounded correlation column holds. -/
noncomputable def roundHEreal (x : ℝ) : ℤ :=
  if x - ⌊x⌋ < 1 / 2 then ⌊x⌋
  else if 1 / 2 < x - ⌊x⌋ then ⌊x⌋ + 1
  else if 2 ∣ ⌊x⌋ then ⌊x⌋ else ⌊x⌋ + 1

/-! ### Infrastructure: per-row description of the pipeline output

Every pipeline stage maps rows (or traverses them fallibly) writing one
column.  `RowDescO cols dsc` relates an input row to a processed row:
indices agree, each present column's cell is described by `dsc` as a
function of the input row, and absent (phantom) columns still hold their
value from the initial whole-frame replace step. -/

def RowDescO (cols : List Col) (dsc : Col → Row → Option Cell) (p q : ℕ × Row) : Prop :=
  q.1 = p.1 ∧ (∀ c, c ∈ cols → some (q.2.get c) = dsc c p.2) ∧
    (∀ c, c ∉ cols → q.2.get c = replaceCell (p.2.get c))

theorem Row.eq_of_get {r1 r2 : Row} (h : ∀ c, r1.get c = r2.get c) : r1 = r2 := by
  cases r1
  cases r2
  simp only [Row.mk.injEq]
  exact ⟨h .studentID, h .term, h .track, h .cohort, h .className, h .firstName,
    h .lastName, h .incomeStudent, h .math, h .english, h .science, h .history,
    h .attendance, h .projectScore, h .passed⟩

theorem replaceRow_get (r : Row) (c : Col) :
    (replaceRow r).get c = replaceCell (r.get c) := by
  cases c <;> rfl

theorem forall₂_map_self {α β : Type} (l : List α) (f : α → β) (R : α → β → Prop)
    (h : ∀ a ∈ l, R a (f a)) : List.Forall₂ R l (l.map f) := by
  induction l with
  | nil => exact List.Forall₂.nil
  | cons a l ih =>
    exact List.Forall₂.cons (h a (by simp)) (ih (fun x hx => h x (by simp [hx])))

theorem forall₂_mem_right {α β : Type} {R : α → β → Prop} {l : List α} {m : List β}
    (h : List.Forall₂ R l m) (b : β) (hb : b ∈ m) : ∃ a ∈ l, R a b := by
  induction h with
  | nil => cases hb
  | cons hr hl ih =>
    rcases List.mem_cons.mp hb with hb | hb
    · exact ⟨_, by simp, hb ▸ hr⟩
    · obtain ⟨a, ha, har⟩ := ih hb
      exact ⟨a, by simp [ha], har⟩

theorem forall₂_map_fst {α β : Type} {R : ℕ × α → ℕ × β → Prop}
    {l : List (ℕ × α)} {m : List (ℕ × β)} (h : List.Forall₂ R l m)
    (hf : ∀ p q, R p q → q.1 = p.1) : m.map Prod.fst = l.map Prod.fst := by
  induction h with
  | nil => rfl
  | cons hr hl ih => simp [ih, hf _ _ hr]

theorem forall₂_filterMap_eq {α β γ : Type} {R : α → β → Prop}
    {l : List α} {m : List β} (h : List.Forall₂ R l m)
    (f : β → Option γ) (g : α → Option γ)
    (hfg : ∀ a b, R a b → f b = g a) : m.filterMap f = l.filterMap g := by
  induction h with
  | nil => rfl
  | cons hr hl ih =>
    rw [List.filterMap_cons, List.filterMap_cons, hfg _ _ hr, ih]

theorem forall₂_get_of_nodup {α : Type} {R : ℕ × α → ℕ × α → Prop}
    {l m : List (ℕ × α)} (h : List.Forall₂ R l m)
    (hf : ∀ p q, R p q → q.1 = p.1) (hnd : (l.map Prod.fst).Nodup)
    {i : ℕ} {r s : α} (hr : (i, r) ∈ l) (hs : (i, s) ∈ m) : R (i, r) (i, s) := by
  induction h with
  | nil => cases hr
  | cons hrel hl ih =>
    rename_i a b l m
    have hnd2 : (l.map Prod.fst).Nodup := (List.nodup_cons.mp (by simpa using hnd)).2
    have hhead : a.1 ∉ l.map Prod.fst := (List.nodup_cons.mp (by simpa using hnd)).1
    rcases List.mem_cons.mp hr with hr | hr <;> rcases List.mem_cons.mp hs with hs | hs
    · exact hr ▸ hs ▸ hrel
    · exfalso
      have hb1 : b.1 = i := by rw [hf a b hrel, ← hr]
      have hil : i ∈ l.map Prod.fst := by
        rw [← forall₂_map_fst hl hf]
        exact List.mem_map.mpr ⟨(i, s), hs, rfl⟩
      have hai : a.1 = i := by rw [← hr]
      exact hhead (hai ▸ hil)
    · exfalso
      have hai : a.1 = i := by
        have hb1 : b.1 = a.1 := hf a b hrel
        rw [← hb1, ← hs]
      have hil : i ∈ l.map Prod.fst := List.mem_map.mpr ⟨(i, r), hr, rfl⟩
      exact hhead (hai ▸ hil)
    · exact ih hnd2 hr hs

theorem rowDesc_mapRows {cols : List Col} {dsc : Col → Row → Option Cell}
    {l m : List (ℕ × Row)} (h : List.Forall₂ (RowDescO cols dsc) l m)
    (g : ℕ × Row → ℕ × Row) (dsc2 : Col → Row → Option Cell)
    (hg : ∀ p q, RowDescO cols dsc p q →
      (g q).1 = q.1 ∧
      (∀ c, c ∈ cols → some ((g q).2.get c) = dsc2 c p.2) ∧
      (∀ c, c ∉ cols → (g q).2.get c = q.2.get c)) :
    List.Forall₂ (RowDescO cols dsc2) l (m.map g) := by
  induction h with
  | nil => exact List.Forall₂.nil
  | cons hr hl ih =>
    refine List.Forall₂.cons ⟨?_, (hg _ _ hr).2.1, ?_⟩ ih
    · rw [(hg _ _ hr).1, hr.1]
    · intro c hc
      rw [(hg _ _ hr).2.2 c hc, hr.2.2 c hc]

theorem rowDesc_mapPairsM {cols : List Col} {dsc : Col → Row → Option Cell}
    {l m : List (ℕ × Row)} (h : List.Forall₂ (RowDescO cols dsc) l m)
    (f : ℕ × Row → Option (ℕ × Row)) {m2 : List (ℕ × Row)}
    (hm : mapPairsM f m = some m2) (dsc2 : Col → Row → Option Cell)
    (hf : ∀ p q q2, RowDescO cols dsc p q → f q = some q2 →
      q2.1 = q.1 ∧
      (∀ c, c ∈ cols → some (q2.2.get c) = dsc2 c p.2) ∧
      (∀ c, c ∉ cols → q2.2.get c = q.2.get c)) :
    List.Forall₂ (RowDescO cols dsc2) l m2 := by
  induction h generalizing m2 with
  | nil =>
    simp only [mapPairsM] at hm
    cases hm
    exact List.Forall₂.nil
  | cons hr hl ih =>
    rename_i a b l m
    simp only [mapPairsM] at hm
    cases hfb : f b with
    | none => rw [hfb] at hm; cases hm
    | some q2 =>
      rw [hfb] at hm
      cases hrest : mapPairsM f m with
      | none => rw [hrest] at hm; cases hm
      | some qs =>
        rw [hrest] at hm
        cases hm
        refine List.Forall₂.cons ⟨?_, (hf _ _ _ hr hfb).2.1, ?_⟩ (ih hrest)
        · rw [(hf _ _ _ hr hfb).1, hr.1]
        · intro c hc
          rw [(hf _ _ _ hr hfb).2.2 c hc, hr.2.2 c hc]

theorem rowDesc_applyCol {df : DF} {cols : List Col} {dsc : Col → Row → Option Cell}
    {l : List (ℕ × Row)} (hc : df.cols = cols)
    (h : List.Forall₂ (RowDescO cols dsc) l df.rows) (c0 : Col) (f : Cell → Cell) :
    (applyCol df c0 f).cols = cols ∧
    List.Forall₂
      (RowDescO cols (fun c r => if c = c0 then (dsc c0 r).map f else dsc c r))
      l (applyCol df c0 f).rows := by
  unfold applyCol
  by_cases hmem : c0 ∈ df.cols
  · rw [if_pos hmem]
    refine ⟨hc, ?_⟩
    unfold DF.mapCell DF.mapRows
    refine rowDesc_mapRows h _ _ (fun p q hpq => ⟨rfl, ?_, ?_⟩)
    · intro c hcc
      by_cases hcc0 : c = c0
      · subst hcc0
        rw [if_pos rfl, Row.get_set_self, ← hpq.2.1 c (hc ▸ hcc)]
        rfl
      · rw [if_neg hcc0, Row.get_set_ne _ _ _ _ hcc0]
        exact hpq.2.1 c hcc
    · intro c hcc
      have : c ≠ c0 := fun he => hcc (he ▸ hc ▸ hmem)
      exact Row.get_set_ne _ _ _ _ this
  · rw [if_neg hmem]
    refine ⟨hc, h.imp (fun {p q} hpq => ⟨hpq.1, ?_, hpq.2.2⟩)⟩
    intro c hcc
    have hcne : c ≠ c0 := by
      intro he
      subst he
      rw [hc] at hmem
      exact hmem hcc
    dsimp only
    rw [if_neg hcne]
    exact hpq.2.1 c hcc

theorem rowDesc_applyColM {df : DF} {cols : List Col} {dsc : Col → Row → Option Cell}
    {l : List (ℕ × Row)} (hc : df.cols = cols)
    (h : List.Forall₂ (RowDescO cols dsc) l df.rows) (c0 : Col)
    (fO : Cell → Option Cell) {D2 : DF} (hstep : applyColM df c0 fO = some D2) :
    D2.cols = cols ∧
    List.Forall₂
      (RowDescO cols (fun c r => if c = c0 then (dsc c0 r).bind fO else dsc c r))
      l D2.rows := by
  unfold applyColM at hstep
  by_cases hmem : c0 ∈ df.cols
  · rw [if_pos hmem] at hstep
    cases hres : mapPairsM (fun p => (fO (p.2.get c0)).map (fun v => (p.1, p.2.set c0 v))) df.rows with
    | none => rw [hres] at hstep; cases hstep
    | some rows =>
      rw [hres] at hstep
      cases hstep
      refine ⟨hc, ?_⟩
      refine rowDesc_mapPairsM h _ hres _ (fun p q q2 hpq hfq => ?_)
      obtain ⟨v, hv, hq2⟩ := Option.map_eq_some'.mp hfq
      subst hq2
      refine ⟨rfl, ?_, ?_⟩
      · intro c hcc
        by_cases hcc0 : c = c0
        · subst hcc0
          rw [if_pos rfl, Row.get_set_self, ← hpq.2.1 c (hc ▸ hcc)]
          simp [hv]
        · rw [if_neg hcc0, Row.get_set_ne _ _ _ _ hcc0]
          exact hpq.2.1 c hcc
      · intro c hcc
        have hcne : c ≠ c0 := by
          intro he
          subst he
          rw [hc] at hmem
          exact hcc hmem
        exact Row.get_set_ne _ _ _ _ hcne
  · rw [if_neg hmem] at hstep
    cases hstep
    refine ⟨hc, h.imp (fun {p q} hpq => ⟨hpq.1, ?_, hpq.2.2⟩)⟩
    intro c hcc
    have hcne : c ≠ c0 := by
      intro he
      subst he
      rw [hc] at hmem
      exact hmem hcc
    dsimp only
    rw [if_neg hcne]
    exact hpq.2.1 c hcc

/-- Resolution of one score cell after coercion and range filtering:
keep a valid value; impute a missing one from the group values of its
track, leaving it missing when the track is missing or has no valid
values.  `vals` is the per-track list of valid values of the column. -/
def resolveScore (vals : Cell → List ℚ) (t : Cell) (w : Cell) : Cell :=
  if w = .na then
    (if t = .na then .na
     else
       match vals t with
       | [] => .na
       | vs => .num (round1 (qdivNat (qsum vs) vs.length)))
  else w

/-- Resolution of one boolean cell after decoding: keep a decoded value;
impute a missing one with the per-track mode (ties to `false`), leaving
it missing when the track is missing or has no decoded values. -/
def resolveBool (vals : Cell → List Bool) (t : Cell) (w : Cell) : Cell :=
  if w = .na then
    (if t = .na then .na
     else
       match vals t with
       | [] => .na
       | vs => .bool (decide (vs.count false < vs.count true)))
  else w

/-- The valid values of column `c0` within a track group, described over
the input rows through `dsc`. -/
def dscScoreVals (dsc : Col → Row → Option Cell) (c0 : Col) (l : List (ℕ × Row))
    (t : Cell) : List ℚ :=
  l.filterMap (fun p =>
    match dsc Col.track p.2, dsc c0 p.2 with
    | some tt, some v0 =>
      if tt = t then
        match scoreCleanCell v0 with
        | .num q => some q
        | _ => none
      else none
    | _, _ => none)

/-- The decoded boolean values of column `c0` within a track group,
described over the input rows through `dsc`. -/
def dscBoolVals (dsc : Col → Row → Option Cell) (c0 : Col) (l : List (ℕ × Row))
    (t : Cell) : List Bool :=
  l.filterMap (fun p =>
    match dsc Col.track p.2, dsc c0 p.2 with
    | some tt, some v0 =>
      if tt = t then
        match decodeBoolCell v0 with
        | .bool b => some b
        | _ => none
      else none
    | _, _ => none)

theorem rowDesc_scoreStep {df : DF} {cols : List Col} {dsc : Col → Row → Option Cell}
    {l : List (ℕ × Row)} (hc : df.cols = cols)
    (h : List.Forall₂ (RowDescO cols dsc) l df.rows) {c0 : Col}
    (hne : c0 ≠ Col.track) {D2 : DF} (hstep : scoreStep df c0 = some D2) :
    D2.cols = cols ∧
    List.Forall₂
      (RowDescO cols (fun c r =>
        if c = c0 then
          (dsc c0 r).bind (fun v0 => (dsc Col.track r).map (fun t =>
            resolveScore (dscScoreVals dsc c0 l) t (scoreCleanCell v0)))
        else dsc c r))
      l D2.rows := by
  unfold scoreStep at hstep
  by_cases hmem : c0 ∈ df.cols
  · rw [if_pos hmem] at hstep
    by_cases htr : Col.track ∈ df.cols
    · rw [if_pos htr] at hstep
      cases hstep
      -- the frame after coercion and range filtering
      have hM : List.Forall₂
          (RowDescO cols (fun c r => if c = c0 then (dsc c0 r).map scoreCleanCell else dsc c r))
          l (df.mapCell c0 scoreCleanCell).rows := by
        unfold DF.mapCell DF.mapRows
        refine rowDesc_mapRows h _ _ (fun p q hpq => ⟨rfl, ?_, ?_⟩)
        · intro c hcc
          dsimp only
          by_cases hcc0 : c = c0
          · rw [hcc0, Row.get_set_self, if_pos rfl, ← hpq.2.1 c0 (hc ▸ hmem)]
            rfl
          · rw [if_neg hcc0, Row.get_set_ne _ _ _ _ hcc0]
            exact hpq.2.1 c hcc
        · intro c hcc
          have hcne : c ≠ c0 := by
            intro he
            subst he
            rw [hc] at hmem
            exact hcc hmem
          exact Row.get_set_ne _ _ _ _ hcne
      -- the group values of the filtered frame are described over the input
      have hvals : ∀ k, groupScoreVals (df.mapCell c0 scoreCleanCell).rows c0 k =
          dscScoreVals dsc c0 l k := by
        intro k
        unfold groupScoreVals dscScoreVals
        refine forall₂_filterMap_eq hM _ _ (fun p q hpq => ?_)
        have ht : some q.2.track = dsc Col.track p.2 := by
          have := hpq.2.1 Col.track (hc ▸ htr)
          dsimp only at this
          rw [if_neg (fun he : Col.track = c0 => hne he.symm)] at this
          exact this
        have hv : some (q.2.get c0) = (dsc c0 p.2).map scoreCleanCell := by
          have := hpq.2.1 c0 (hc ▸ hmem)
          dsimp only at this
          rw [if_pos rfl] at this
          exact this
        obtain ⟨v0, hv0, hv0e⟩ := Option.map_eq_some'.mp hv.symm
        rw [← ht, hv0, ← hv0e]
      refine ⟨hc, ?_⟩
      unfold imputeScoreCol
      refine rowDesc_mapRows hM _ _ (fun p q hpq => ?_)
      have ht : some q.2.track = dsc Col.track p.2 := by
        have := hpq.2.1 Col.track (hc ▸ htr)
        dsimp only at this
        rw [if_neg (fun he : Col.track = c0 => hne he.symm)] at this
        exact this
      have hv : some (q.2.get c0) = (dsc c0 p.2).map scoreCleanCell := by
        have := hpq.2.1 c0 (hc ▸ hmem)
        dsimp only at this
        rw [if_pos rfl] at this
        exact this
      obtain ⟨v0, hv0, hv0e⟩ := Option.map_eq_some'.mp hv.symm
      by_cases hna : q.2.get c0 = .na
      · rw [if_pos hna]
        refine ⟨rfl, ?_, ?_⟩
        · intro c hcc
          dsimp only
          by_cases hcc0 : c = c0
          · rw [hcc0, Row.get_set_self, if_pos rfl, hv0, ← ht]
            simp only [Option.some_bind, Option.map_some']
            unfold resolveScore
            rw [hv0e, if_pos hna, ← hvals q.2.track]
          · rw [if_neg hcc0, Row.get_set_ne _ _ _ _ hcc0]
            have h1 := hpq.2.1 c hcc
            dsimp only at h1
            rw [if_neg hcc0] at h1
            exact h1
        · intro c hcc
          have hcne : c ≠ c0 := by
            intro he
            subst he
            rw [hc] at hmem
            exact hcc hmem
          exact Row.get_set_ne _ _ _ _ hcne
      · rw [if_neg hna]
        refine ⟨rfl, ?_, fun c hcc => rfl⟩
        intro c hcc
        by_cases hcc0 : c = c0
        · rw [hcc0, if_pos rfl, hv0, ← ht]
          simp only [Option.some_bind, Option.map_some']
          unfold resolveScore
          rw [hv0e, if_neg hna]
        · rw [if_neg hcc0]
          have h1 := hpq.2.1 c hcc
          dsimp only at h1
          rw [if_neg hcc0] at h1
          exact h1
    · rw [if_neg htr] at hstep
      cases hstep
  · rw [if_neg hmem] at hstep
    cases hstep
    refine ⟨hc, h.imp (fun {p q} hpq => ⟨hpq.1, ?_, hpq.2.2⟩)⟩
    intro c hcc
    have hcne : c ≠ c0 := by
      intro he
      subst he
      rw [hc] at hmem
      exact hmem hcc
    dsimp only
    rw [if_neg hcne]
    exact hpq.2.1 c hcc

theorem rowDesc_boolStep {df : DF} {cols : List Col} {dsc : Col → Row → Option Cell}
    {l : List (ℕ × Row)} (hc : df.cols = cols)
    (h : List.Forall₂ (RowDescO cols dsc) l df.rows) {c0 : Col}
    (hne : c0 ≠ Col.track) {D2 : DF} (hstep : boolStep df c0 = some D2) :
    D2.cols = cols ∧
    List.Forall₂
      (RowDescO cols (fun c r =>
        if c = c0 then
          (dsc c0 r).bind (fun v0 => (dsc Col.track r).map (fun t =>
            resolveBool (dscBoolVals dsc c0 l) t (decodeBoolCell v0)))
        else dsc c r))
      l D2.rows := by
  unfold boolStep at hstep
  by_cases hmem : c0 ∈ df.cols
  · rw [if_pos hmem] at hstep
    by_cases htr : Col.track ∈ df.cols
    · rw [if_pos htr] at hstep
      cases hstep
      have hM : List.Forall₂
          (RowDescO cols (fun c r => if c = c0 then (dsc c0 r).map decodeBoolCell else dsc c r))
          l (df.mapCell c0 decodeBoolCell).rows := by
        unfold DF.mapCell DF.mapRows
        refine rowDesc_mapRows h _ _ (fun p q hpq => ⟨rfl, ?_, ?_⟩)
        · intro c hcc
          dsimp only
          by_cases hcc0 : c = c0
          · rw [hcc0, Row.get_set_self, if_pos rfl, ← hpq.2.1 c0 (hc ▸ hmem)]
            rfl
          · rw [if_neg hcc0, Row.get_set_ne _ _ _ _ hcc0]
            exact hpq.2.1 c hcc
        · intro c hcc
          have hcne : c ≠ c0 := by
            intro he
            subst he
            rw [hc] at hmem
            exact hcc hmem
          exact Row.get_set_ne _ _ _ _ hcne
      have hvals : ∀ k, groupBoolVals (df.mapCell c0 decodeBoolCell).rows c0 k =
          dscBoolVals dsc c0 l k := by
        intro k
        unfold groupBoolVals dscBoolVals
        refine forall₂_filterMap_eq hM _ _ (fun p q hpq => ?_)
        have ht : some q.2.track = dsc Col.track p.2 := by
          have := hpq.2.1 Col.track (hc ▸ htr)
          dsimp only at this
          rw [if_neg (fun he : Col.track = c0 => hne he.symm)] at this
          exact this
        have hv : some (q.2.get c0) = (dsc c0 p.2).map decodeBoolCell := by
          have := hpq.2.1 c0 (hc ▸ hmem)
          dsimp only at this
          rw [if_pos rfl] at this
          exact this
        obtain ⟨v0, hv0, hv0e⟩ := Option.map_eq_some'.mp hv.symm
        rw [← ht, hv0, ← hv0e]
      refine ⟨hc, ?_⟩
      unfold imputeBoolCol
      refine rowDesc_mapRows hM _ _ (fun p q hpq => ?_)
      have ht : some q.2.track = dsc Col.track p.2 := by
        have := hpq.2.1 Col.track (hc ▸ htr)
        dsimp only at this
        rw [if_neg (fun he : Col.track = c0 => hne he.symm)] at this
        exact this
      have hv : some (q.2.get c0) = (dsc c0 p.2).map decodeBoolCell := by
        have := hpq.2.1 c0 (hc ▸ hmem)
        dsimp only at this
        rw [if_pos rfl] at this
        exact this
      obtain ⟨v0, hv0, hv0e⟩ := Option.map_eq_some'.mp hv.symm
      by_cases hna : q.2.get c0 = .na
      · rw [if_pos hna]
        refine ⟨rfl, ?_, ?_⟩
        · intro c hcc
          dsimp only
          by_cases hcc0 : c = c0
          · rw [hcc0, Row.get_set_self, if_pos rfl, hv0, ← ht]
            simp only [Option.some_bind, Option.map_some']
            unfold resolveBool
            rw [hv0e, if_pos hna, ← hvals q.2.track]
          · rw [if_neg hcc0, Row.get_set_ne _ _ _ _ hcc0]
            have h1 := hpq.2.1 c hcc
            dsimp only at h1
            rw [if_neg hcc0] at h1
            exact h1
        · intro c hcc
          have hcne : c ≠ c0 := by
            intro he
            subst he
            rw [hc] at hmem
            exact hcc hmem
          exact Row.get_set_ne _ _ _ _ hcne
      · rw [if_neg hna]
        refine ⟨rfl, ?_, fun c hcc => rfl⟩
        intro c hcc
        by_cases hcc0 : c = c0
        · rw [hcc0, if_pos rfl, hv0, ← ht]
          simp only [Option.some_bind, Option.map_some']
          unfold resolveBool
          rw [hv0e, if_neg hna]
        · rw [if_neg hcc0]
          have h1 := hpq.2.1 c hcc
          dsimp only at h1
          rw [if_neg hcc0] at h1
          exact h1
    · rw [if_neg htr] at hstep
      cases hstep
  · rw [if_neg hmem] at hstep
    cases hstep
    refine ⟨hc, h.imp (fun {p q} hpq => ⟨hpq.1, ?_, hpq.2.2⟩)⟩
    intro c hcc
    have hcne : c ≠ c0 := by
      intro he
      subst he
      rw [hc] at hmem
      exact hmem hcc
    dsimp only
    rw [if_neg hcne]
    exact hpq.2.1 c hcc

/-- Valid (coerced, in-range) values of score column `c0` in the track
group `t`, over the input frame: exactly the values that feed the group
mean of the imputation step. -/
def validVals (df : DF) (c0 : Col) (t : Cell) : List ℚ :=
  df.rows.filterMap (fun p =>
    if normStrCell (replaceCell p.2.track) = t then
      match scoreCleanCell (replaceCell (p.2.get c0)) with
      | .num q => some q
      | _ => none
    else none)

/-- Decoded boolean values of column `c0` in the track group `t`, over
the input frame: exactly the values that feed the mode imputation. -/
def decodedVals (df : DF) (c0 : Col) (t : Cell) : List Bool :=
  df.rows.filterMap (fun p =>
    if normStrCell (replaceCell p.2.track) = t then
      match decodeBoolCell (replaceCell (p.2.get c0)) with
      | .bool b => some b
      | _ => none
    else none)

/-- The value a present column holds right before the completeness
filter, as a function of the row's raw `Track` cell and raw cell
(`none` models the Int64 cast raising on a non-integral float). -/
def finalCell (df : DF) (c : Col) (traw v : Cell) : Option Cell :=
  match c with
  | .studentID => (intCastCell (replaceCell v)).map sidCheckCell
  | .term => (intCastCell (replaceCell v)).map termCheckCell
  | .track => some (normStrCell (replaceCell v))
  | .firstName => some (normStrCell (replaceCell v))
  | .lastName => some (normStrCell (replaceCell v))
  | .className => some (validateFmtCell classFmt (normStrCell (replaceCell v)))
  | .cohort => some (validateFmtCell cohortFmt (normStrCell (replaceCell v)))
  | .incomeStudent => some (resolveBool (decodedVals df .incomeStudent)
      (normStrCell (replaceCell traw)) (decodeBoolCell (replaceCell v)))
  | .passed => some (resolveBool (decodedVals df .passed)
      (normStrCell (replaceCell traw)) (decodeBoolCell (replaceCell v)))
  | .math => some (resolveScore (validVals df .math)
      (normStrCell (replaceCell traw)) (scoreCleanCell (replaceCell v)))
  | .english => some (resolveScore (validVals df .english)
      (normStrCell (replaceCell traw)) (scoreCleanCell (replaceCell v)))
  | .science => some (resolveScore (validVals df .science)
      (normStrCell (replaceCell traw)) (scoreCleanCell (replaceCell v)))
  | .history => some (resolveScore (validVals df .history)
      (normStrCell (replaceCell traw)) (scoreCleanCell (replaceCell v)))
  | .attendance => some (resolveScore (validVals df .attendance)
      (normStrCell (replaceCell traw)) (scoreCleanCell (replaceCell v)))
  | .projectScore => some (resolveScore (validVals df .projectScore)
      (normStrCell (replaceCell traw)) (scoreCleanCell (replaceCell v)))

/-- Relation between an input row and the corresponding row right before
the completeness filter of `cleanDf`. -/
def midDesc (df : DF) (p q : ℕ × Row) : Prop :=
  q.1 = p.1 ∧
  (∀ c, c ∈ df.cols → some (q.2.get c) = finalCell df c p.2.track (p.2.get c)) ∧
  (∀ c, c ∉ df.cols → q.2.get c = replaceCell (p.2.get c))

set_option maxHeartbeats 3200000 in
/-- Master description of `cleanDf`: when the pipeline succeeds, the
output keeps the column set, and its rows are the completeness-filtered
image of a row list in which every row corresponds positionally to an
input row with every present cell given by `finalCell`. -/
theorem cleanDf_desc (df : DF) (out : DF) (h : cleanDf df = some out) :
    out.cols = df.cols ∧
    ∃ mid : List (ℕ × Row),
      List.Forall₂ (midDesc df) df.rows mid ∧
      out.rows = mid.filter (fun p => rowComplete df.cols p.2) := by
  unfold cleanDf at h
  simp only [Option.pure_def, Option.bind_eq_bind, Option.bind_eq_some, Option.some.injEq] at h
  obtain ⟨d9, h9, d10, h10, d13, h13, d14, h14, d15, h15, d16, h16, d17, h17,
    d18, h18, d19, h19, d20, h20s, hout⟩ := h
  have h1 : List.Forall₂ (RowDescO df.cols (fun c r => some (replaceCell (r.get c))))
      df.rows (df.mapRows replaceRow).rows := by
    unfold DF.mapRows
    refine forall₂_map_self _ _ _ (fun p hp => ⟨rfl, ?_, ?_⟩)
    · intro c hc
      rw [replaceRow_get]
    · intro c hc
      rw [replaceRow_get]
  obtain ⟨hcA, hA⟩ := rowDesc_applyCol
    (show (df.mapRows replaceRow).cols = df.cols from rfl) h1 Col.firstName normStrCell
  obtain ⟨hcB, hB⟩ := rowDesc_applyCol hcA hA Col.lastName normStrCell
  obtain ⟨hcC, hC⟩ := rowDesc_applyCol hcB hB Col.className normStrCell
  obtain ⟨hcD, hD⟩ := rowDesc_applyCol hcC hC Col.cohort normStrCell
  obtain ⟨hcE, hE⟩ := rowDesc_applyCol hcD hD Col.track normStrCell
  obtain ⟨hcF, hF⟩ := rowDesc_applyCol hcE hE Col.className (validateFmtCell classFmt)
  obtain ⟨hcG, hG⟩ := rowDesc_applyCol hcF hF Col.cohort (validateFmtCell cohortFmt)
  obtain ⟨hcH, hH⟩ := rowDesc_applyColM hcG hG Col.studentID intCastCell h9
  obtain ⟨hcI, hI⟩ := rowDesc_applyColM hcH hH Col.term intCastCell h10
  obtain ⟨hcJ, hJ⟩ := rowDesc_applyCol hcI hI Col.studentID sidCheckCell
  obtain ⟨hcK, hK⟩ := rowDesc_applyCol hcJ hJ Col.term termCheckCell
  obtain ⟨hcL, hL⟩ := rowDesc_scoreStep hcK hK (by decide) h13
  obtain ⟨hcM, hM⟩ := rowDesc_scoreStep hcL hL (by decide) h14
  obtain ⟨hcN, hN⟩ := rowDesc_scoreStep hcM hM (by decide) h15
  obtain ⟨hcO, hO⟩ := rowDesc_scoreStep hcN hN (by decide) h16
  obtain ⟨hcP, hP⟩ := rowDesc_scoreStep hcO hO (by decide) h17
  obtain ⟨hcQ, hQ⟩ := rowDesc_scoreStep hcP hP (by decide) h18
  obtain ⟨hcR, hR⟩ := rowDesc_boolStep hcQ hQ (by decide) h19
  obtain ⟨hcS, hS⟩ := rowDesc_boolStep hcR hR (by decide) h20s
  refine ⟨?_, d20.rows, ?_, ?_⟩
  · rw [← hout]
    exact hcS
  · refine hS.imp (fun {p q} hpq => ⟨hpq.1, ?_, hpq.2.2⟩)
    intro c hc
    refine (hpq.2.1 c hc).trans ?_
    cases c <;> rfl
  · rw [← hout]
    unfold dropnaDF
    rw [hcS]

/-! ### Domain lemmas for the cell transformations -/

theorem roundHE_nonneg (q : ℚ) (h : 0 ≤ q) : 0 ≤ roundHE q := by
  unfold roundHE
  dsimp only
  rw [qfloor_eq]
  have hf : (0 : ℤ) ≤ ⌊q⌋ := by positivity
  split
  · exact hf
  · split
    · omega
    · split <;> omega

theorem roundHE_le (q : ℚ) (n : ℤ) (h : q ≤ n) : roundHE q ≤ n := by
  unfold roundHE
  dsimp only
  rw [qfloor_eq]
  have hfn : ⌊q⌋ ≤ n := by
    have := Int.floor_le_floor h
    rwa [Int.floor_intCast] at this
  have hh : (mkRat (2 * ⌊q⌋ + 1) 2 : ℚ) = (⌊q⌋ : ℚ) + 1 / 2 := by
    rw [mkRat_intCast_div]
    push_cast
    ring
  split
  · exact hfn
  · rename_i h1
    split
    · rename_i h2
      rw [hh] at h2
      have : ((⌊q⌋ : ℚ)) < (n : ℚ) - 1 / 2 := by linarith
      have : ((⌊q⌋ : ℚ)) < (n : ℚ) := by linarith
      have : ⌊q⌋ < n := by exact_mod_cast this
      omega
    · rename_i h2
      have heq : q = (⌊q⌋ : ℚ) + 1 / 2 := by
        rw [hh] at h1 h2
        linarith
      have : ((⌊q⌋ : ℚ)) + 1 / 2 ≤ (n : ℚ) := by rw [← heq]; exact h
      have : ((⌊q⌋ : ℚ)) < (n : ℚ) := by linarith
      have hlt : ⌊q⌋ < n := by exact_mod_cast this
      split <;> omega

theorem round1_eq (q : ℚ) : round1 q = (roundHE (q * 10) : ℚ) / 10 := by
  unfold round1
  rw [mkRat_intCast_div, qmulNat_eq]
  norm_num

theorem round1_bounds (q : ℚ) (h0 : 0 ≤ q) (h100 : q ≤ 100) :
    0 ≤ round1 q ∧ round1 q ≤ 100 := by
  rw [round1_eq]
  have hl : 0 ≤ roundHE (q * 10) := roundHE_nonneg _ (by positivity)
  have hr : roundHE (q * 10) ≤ 1000 := roundHE_le _ 1000 (by push_cast; linarith)
  constructor
  · positivity
  · rw [div_le_iff₀ (by norm_num)]
    have : ((roundHE (q * 10) : ℚ)) ≤ 1000 := by exact_mod_cast hr
    linarith

theorem list_sum_nonneg {l : List ℚ} (h : ∀ x ∈ l, 0 ≤ x) : 0 ≤ l.sum := by
  induction l with
  | nil => simp
  | cons a l ih =>
    rw [List.sum_cons]
    have := h a (by simp)
    have := ih (fun x hx => h x (by simp [hx]))
    linarith

theorem mean_bounds (l : List ℚ) (hne : l ≠ []) (h : ∀ x ∈ l, 0 ≤ x ∧ x ≤ 100) :
    0 ≤ l.sum / l.length ∧ l.sum / l.length ≤ 100 := by
  have hlen : 0 < (l.length : ℚ) := by
    have : 0 < l.length := List.length_pos.mpr hne
    exact_mod_cast this
  have hs0 : 0 ≤ l.sum := list_sum_nonneg (fun x hx => (h x hx).1)
  have hs1 : l.sum ≤ l.length * 100 := by
    have := List.sum_le_card_nsmul l 100 (fun x hx => (h x hx).2)
    rwa [nsmul_eq_mul] at this
  constructor
  · positivity
  · rw [div_le_iff₀ hlen]
    linarith

theorem toNumericCell_shape (v : Cell) :
    toNumericCell v = .na ∨ ∃ q, toNumericCell v = .num q := by
  cases v with
  | na => exact Or.inl rfl
  | num q => exact Or.inr ⟨q, rfl⟩
  | int n => exact Or.inr ⟨n, rfl⟩
  | bool b => exact Or.inr ⟨_, rfl⟩
  | str s =>
    simp only [toNumericCell]
    cases parseNumber s with
    | none => exact Or.inl rfl
    | some q => exact Or.inr ⟨q, rfl⟩

theorem scoreCleanCell_shape (v : Cell) :
    scoreCleanCell v = .na ∨ ∃ q, scoreCleanCell v = .num q ∧ 0 ≤ q ∧ q ≤ 100 := by
  unfold scoreCleanCell
  rcases toNumericCell_shape v with hv | ⟨q, hv⟩ <;> rw [hv]
  · exact Or.inl rfl
  · simp only [rangeFilterCell]
    by_cases hq : q < 0 ∨ 100 < q
    · rw [if_pos hq]
      exact Or.inl rfl
    · rw [if_neg hq]
      push_neg at hq
      exact Or.inr ⟨q, rfl, hq.1, hq.2⟩

theorem validVals_bounds (df : DF) (c0 : Col) (t : Cell) :
    ∀ x ∈ validVals df c0 t, 0 ≤ x ∧ x ≤ 100 := by
  intro x hx
  unfold validVals at hx
  obtain ⟨p, hp, hpx⟩ := List.mem_filterMap.mp hx
  by_cases hcond : normStrCell (replaceCell p.2.track) = t
  · rw [if_pos hcond] at hpx
    rcases scoreCleanCell_shape (replaceCell (p.2.get c0)) with hs | ⟨q, hs, hq0, hq1⟩ <;>
      rw [hs] at hpx
    · cases hpx
    · cases hpx
      exact ⟨hq0, hq1⟩
  · rw [if_neg hcond] at hpx
    cases hpx

theorem resolveScore_shape (df : DF) (c0 : Col) (t w : Cell)
    (hw : w = .na ∨ ∃ q, w = .num q ∧ 0 ≤ q ∧ q ≤ 100) :
    resolveScore (validVals df c0) t w = .na ∨
      ∃ q, resolveScore (validVals df c0) t w = .num q ∧ 0 ≤ q ∧ q ≤ 100 := by
  unfold resolveScore
  rcases hw with hw | ⟨q, hw, hq0, hq1⟩
  · rw [if_pos hw]
    by_cases ht : t = .na
    · rw [if_pos ht]
      exact Or.inl rfl
    · rw [if_neg ht]
      cases hvs : validVals df c0 t with
      | nil => exact Or.inl rfl
      | cons a l =>
        refine Or.inr ⟨_, rfl, ?_⟩
        have hb := validVals_bounds df c0 t
        rw [hvs] at hb
        have hmb := mean_bounds (a :: l) (by simp) hb
        rw [qdivNat_eq, qsum_eq]
        exact round1_bounds _ hmb.1 hmb.2
  · have hwna : w ≠ .na := by
      rw [hw]
      intro hcon
      cases hcon
    rw [if_neg hwna]
    exact Or.inr ⟨q, hw, hq0, hq1⟩

theorem normStrCell_shape (v : Cell) :
    normStrCell v = .na ∨ ∃ s, normStrCell v = .str s := by
  cases v with
  | na => exact Or.inl rfl
  | str s => exact Or.inr ⟨_, rfl⟩
  | num q => exact Or.inr ⟨_, rfl⟩
  | int n => exact Or.inr ⟨_, rfl⟩
  | bool b => exact Or.inr ⟨_, rfl⟩

theorem validateFmtCell_shape (p : String → Bool) (v : Cell)
    (hv : v = .na ∨ ∃ s, v = .str s) :
    validateFmtCell p v = .na ∨ ∃ s, validateFmtCell p v = .str s ∧ p s = true := by
  rcases hv with hv | ⟨s, hv⟩ <;> subst hv
  · exact Or.inl rfl
  · simp only [validateFmtCell]
    by_cases hp : p s
    · rw [if_pos hp]
      exact Or.inr ⟨s, rfl, hp⟩
    · rw [if_neg hp]
      exact Or.inl rfl

theorem termCheckCell_shape (v : Cell) :
    termCheckCell v = .na ∨ termCheckCell v = .int 1 ∨ termCheckCell v = .int 2 := by
  cases v with
  | int n =>
    simp only [termCheckCell]
    by_cases hn : n = 1 ∨ n = 2
    · rw [if_pos hn]
      rcases hn with hn | hn <;> subst hn
      · exact Or.inr (Or.inl rfl)
      · exact Or.inr (Or.inr rfl)
    · rw [if_neg hn]
      exact Or.inl rfl
  | na => exact Or.inl rfl
  | str s => exact Or.inl rfl
  | num q => exact Or.inl rfl
  | bool b => exact Or.inl rfl

theorem sidCheckCell_shape (v : Cell) :
    sidCheckCell v = .na ∨ ∃ n, sidCheckCell v = .int n ∧ 1000 ≤ n ∧ n ≤ 9999 := by
  cases v with
  | int n =>
    simp only [sidCheckCell]
    by_cases hn : 1000 ≤ n ∧ n ≤ 9999
    · rw [if_pos hn]
      exact Or.inr ⟨n, rfl, hn⟩
    · rw [if_neg hn]
      exact Or.inl rfl
  | na => exact Or.inl rfl
  | str s => exact Or.inl rfl
  | num q => exact Or.inl rfl
  | bool b => exact Or.inl rfl

theorem rowComplete_iff (cols : List Col) (r : Row) :
    rowComplete cols r = true ↔ ∀ c ∈ cols, r.get c ≠ .na := by
  unfold rowComplete
  simp [List.all_eq_true]

theorem finalCell_score (df : DF) (c : Col)
    (hc : c ∈ ([.math, .english, .science, .history, .attendance, .projectScore] : List Col))
    (traw v : Cell) :
    finalCell df c traw v = some (resolveScore (validVals df c)
      (normStrCell (replaceCell traw)) (scoreCleanCell (replaceCell v))) := by
  fin_cases hc <;> rfl

/-- Claim C1: every record surviving `clean_df` has every present field
populated (no missing value), all present score fields in [0, 100], a
`Term` of 1 or 2, and `Class` / `Cohort` matching their formats; the
cleaned rows are a subsequence of the input rows (no dropped record
reappears, no new record is invented), and the column set is kept. -/
theorem c1_cleaning_invariants (df out : DF) (h : cleanDf df = some out) :
    out.cols = df.cols ∧
    (out.rows.map Prod.fst).Sublist (df.rows.map Prod.fst) ∧
    ∀ p ∈ out.rows,
      (∀ c ∈ out.cols, p.2.get c ≠ .na) ∧
      (∀ c ∈ ([.math, .english, .science, .history, .attendance, .projectScore] : List Col),
        c ∈ out.cols → ∃ q, p.2.get c = .num q ∧ 0 ≤ q ∧ q ≤ 100) ∧
      (Col.term ∈ out.cols → p.2.term = .int 1 ∨ p.2.term = .int 2) ∧
      (Col.className ∈ out.cols → ∃ s, p.2.className = .str s ∧ classFmt s = true) ∧
      (Col.cohort ∈ out.cols → ∃ s, p.2.cohort = .str s ∧ cohortFmt s = true) := by
  obtain ⟨hcols, mid, hfa, hrows⟩ := cleanDf_desc df out h
  have hfst : mid.map Prod.fst = df.rows.map Prod.fst :=
    forall₂_map_fst hfa (fun p q hpq => hpq.1)
  refine ⟨hcols, ?_, ?_⟩
  · rw [hrows, ← hfst]
    exact List.Sublist.map _ (List.filter_sublist mid)
  · intro p hp
    rw [hrows] at hp
    have hp2 := List.mem_filter.mp hp
    have hpm : p ∈ mid := hp2.1
    have hcomp := hp2.2
    rw [rowComplete_iff] at hcomp
    obtain ⟨a, ha, hdesc⟩ := forall₂_mem_right hfa p hpm
    have hna : ∀ c ∈ out.cols, p.2.get c ≠ .na := by
      intro c hc
      exact hcomp c (hcols ▸ hc)
    refine ⟨hna, ?_, ?_, ?_, ?_⟩
    · intro c hcl hc
      have hdc := hdesc.2.1 c (hcols ▸ hc)
      rw [finalCell_score df c hcl] at hdc
      have hval : p.2.get c = resolveScore (validVals df c)
          (normStrCell (replaceCell a.2.track)) (scoreCleanCell (replaceCell (a.2.get c))) :=
        Option.some.inj hdc
      rcases resolveScore_shape df c (normStrCell (replaceCell a.2.track))
          (scoreCleanCell (replaceCell (a.2.get c)))
          (scoreCleanCell_shape (replaceCell (a.2.get c))) with hs | ⟨q, hs, hq0, hq1⟩
      · exact absurd (hval.trans hs) (hna c hc)
      · exact ⟨q, hval.trans hs, hq0, hq1⟩
    · intro hc
      have hdc := hdesc.2.1 Col.term (hcols ▸ hc)
      obtain ⟨w, hw, hwe⟩ := Option.map_eq_some'.mp hdc.symm
      rcases termCheckCell_shape w with hs | hs | hs
      · exact absurd (hwe.symm.trans hs) (hna Col.term hc)
      · exact Or.inl (hwe.symm.trans hs)
      · exact Or.inr (hwe.symm.trans hs)
    · intro hc
      have hdc := hdesc.2.1 Col.className (hcols ▸ hc)
      have hval : p.2.get Col.className =
          validateFmtCell classFmt (normStrCell (replaceCell (a.2.get Col.className))) :=
        Option.some.inj hdc
      rcases validateFmtCell_shape classFmt _
          (normStrCell_shape (replaceCell (a.2.get Col.className))) with hs | ⟨s, hs, hps⟩
      · exact absurd (hval.trans hs) (hna Col.className hc)
      · exact ⟨s, hval.trans hs, hps⟩
    · intro hc
      have hdc := hdesc.2.1 Col.cohort (hcols ▸ hc)
      have hval : p.2.get Col.cohort =
          validateFmtCell cohortFmt (normStrCell (replaceCell (a.2.get Col.cohort))) :=
        Option.some.inj hdc
      rcases validateFmtCell_shape cohortFmt _
          (normStrCell_shape (replaceCell (a.2.get Col.cohort))) with hs | ⟨s, hs, hps⟩
      · exact absurd (hval.trans hs) (hna Col.cohort hc)
      · exact ⟨s, hval.trans hs, hps⟩

/-! ### Claims C8, C3, C2: identity coercion and group imputation -/

/-- Claim C8: Int64 coercion parses `"0123"` as the integer 123 (the
leading zero is lost), the four-digit check then fails, so the value
becomes missing and the record is removed by the completeness filter;
and every surviving record's `StudentID` is an integer in [1000, 9999]. -/
theorem c8_leading_zero_studentID (df out : DF) (h : cleanDf df = some out)
    (hsid : Col.studentID ∈ df.cols) (hnd : (df.rows.map Prod.fst).Nodup) :
    intCastCell (replaceCell (Cell.str "0123")) = some (Cell.int 123) ∧
    sidCheckCell (Cell.int 123) = Cell.na ∧
    (∀ p ∈ out.rows, ∃ n, p.2.studentID = .int n ∧ 1000 ≤ n ∧ n ≤ 9999) ∧
    (∀ i r, (i, r) ∈ df.rows → r.studentID = .str "0123" →
      i ∉ out.rows.map Prod.fst) := by
  obtain ⟨hcols, mid, hfa, hrows⟩ := cleanDf_desc df out h
  refine ⟨by decide, by decide, ?_, ?_⟩
  · intro p hp
    rw [hrows] at hp
    have hp2 := List.mem_filter.mp hp
    have hcomp := hp2.2
    rw [rowComplete_iff] at hcomp
    obtain ⟨a, ha, hdesc⟩ := forall₂_mem_right hfa p hp2.1
    have hdc := hdesc.2.1 Col.studentID hsid
    obtain ⟨w, hw, hwe⟩ := Option.map_eq_some'.mp hdc.symm
    rcases sidCheckCell_shape w with hs | ⟨n, hs, hn⟩
    · exact absurd (hwe.symm.trans hs) (hcomp Col.studentID hsid)
    · exact ⟨n, hwe.symm.trans hs, hn⟩
  · intro i r hir hraw hmem
    obtain ⟨⟨i2, s⟩, hsmem, hi2⟩ := List.mem_map.mp hmem
    cases hi2
    rw [hrows] at hsmem
    have hs2 := List.mem_filter.mp hsmem
    have hcomp := hs2.2
    rw [rowComplete_iff] at hcomp
    have hrel := forall₂_get_of_nodup hfa (fun p q hpq => hpq.1) hnd hir hs2.1
    have hdc := hrel.2.1 Col.studentID hsid
    have hna : s.get Col.studentID = Cell.na := by
      have hstep : finalCell df Col.studentID r.track (r.get Col.studentID) =
          some Cell.na := by
        show (intCastCell (replaceCell (r.get Col.studentID))).map sidCheckCell = some Cell.na
        have : r.get Col.studentID = Cell.str "0123" := hraw
        rw [this]
        decide
      rw [hstep] at hdc
      exact Option.some.inj hdc
    exact hcomp Col.studentID hsid hna

theorem finalCell_bool (df : DF) (c : Col)
    (hc : c ∈ ([.incomeStudent, .passed] : List Col)) (traw v : Cell) :
    finalCell df c traw v = some (resolveBool (decodedVals df c)
      (normStrCell (replaceCell traw)) (decodeBoolCell (replaceCell v))) := by
  fin_cases hc <;> rfl

/-- Claim C3 (as specified): for a present score column, a value that is
missing after coercion and range filtering, in a row whose normalized
track is not missing, is imputed with the track's mean of valid values
rounded to one decimal; when the track has no valid values the cell stays
missing and the record is dropped by the completeness filter. -/
theorem c3_score_mean_imputation (df out : DF) (h : cleanDf df = some out)
    (c : Col)
    (hcl : c ∈ ([.math, .english, .science, .history, .attendance, .projectScore] : List Col))
    (hc : c ∈ df.cols) (hnd : (df.rows.map Prod.fst).Nodup)
    (i : ℕ) (r : Row) (hir : (i, r) ∈ df.rows)
    (hna : scoreCleanCell (replaceCell (r.get c)) = .na)
    (htr : normStrCell (replaceCell r.track) ≠ .na) :
    (validVals df c (normStrCell (replaceCell r.track)) ≠ [] →
      ∀ s, (i, s) ∈ out.rows →
        s.get c = .num (round1
          ((validVals df c (normStrCell (replaceCell r.track))).sum /
            (validVals df c (normStrCell (replaceCell r.track))).length))) ∧
    (validVals df c (normStrCell (replaceCell r.track)) = [] →
      i ∉ out.rows.map Prod.fst) := by
  obtain ⟨hcols, mid, hfa, hrows⟩ := cleanDf_desc df out h
  have key : ∀ s, (i, s) ∈ out.rows →
      s.get c = resolveScore (validVals df c) (normStrCell (replaceCell r.track))
        (scoreCleanCell (replaceCell (r.get c))) ∧ s.get c ≠ .na := by
    intro s hsmem
    rw [hrows] at hsmem
    have hs2 := List.mem_filter.mp hsmem
    have hcomp := hs2.2
    rw [rowComplete_iff] at hcomp
    have hrel := forall₂_get_of_nodup hfa (fun p q hpq => hpq.1) hnd hir hs2.1
    have hdc := hrel.2.1 c hc
    rw [finalCell_score df c hcl] at hdc
    exact ⟨Option.some.inj hdc, hcomp c hc⟩
  constructor
  · intro hvs s hsmem
    rw [(key s hsmem).1]
    unfold resolveScore
    rw [if_pos hna, if_neg htr]
    cases hvals : validVals df c (normStrCell (replaceCell r.track)) with
    | nil => exact absurd hvals hvs
    | cons a l =>
      show Cell.num (round1 (qdivNat (qsum (a :: l)) (a :: l).length)) =
        Cell.num (round1 ((a :: l).sum / ((a :: l).length : ℚ)))
      rw [qdivNat_eq, qsum_eq]
  · intro hvs hmem
    obtain ⟨⟨i2, s⟩, hsmem, hi2⟩ := List.mem_map.mp hmem
    cases hi2
    have hk := key s hsmem
    apply hk.2
    rw [hk.1]
    unfold resolveScore
    rw [if_pos hna, if_neg htr, hvs]

/-- Claim C2 (amended): for a present boolean column, a value missing
after decoding, in a row whose normalized track is not missing, is
imputed with a per-track mode of the decoded values — a value whose
count is at least the other's — and an exact tie is resolved to `false`
(pandas `mode()` returns the modal values sorted, `False` first), not to
the first-encountered mode; with no decoded values in the track the cell
stays missing and the record is dropped. -/
theorem c2_bool_mode_imputation (df out : DF) (h : cleanDf df = some out)
    (c : Col) (hcl : c ∈ ([.incomeStudent, .passed] : List Col))
    (hc : c ∈ df.cols) (hnd : (df.rows.map Prod.fst).Nodup)
    (i : ℕ) (r : Row) (hir : (i, r) ∈ df.rows)
    (hna : decodeBoolCell (replaceCell (r.get c)) = .na)
    (htr : normStrCell (replaceCell r.track) ≠ .na) :
    (decodedVals df c (normStrCell (replaceCell r.track)) ≠ [] →
      ∀ s, (i, s) ∈ out.rows → ∃ b : Bool,
        s.get c = .bool b ∧
        (decodedVals df c (normStrCell (replaceCell r.track))).count (!b) ≤
          (decodedVals df c (normStrCell (replaceCell r.track))).count b ∧
        ((decodedVals df c (normStrCell (replaceCell r.track))).count false =
          (decodedVals df c (normStrCell (replaceCell r.track))).count true → b = false)) ∧
    (decodedVals df c (normStrCell (replaceCell r.track)) = [] →
      i ∉ out.rows.map Prod.fst) := by
  obtain ⟨hcols, mid, hfa, hrows⟩ := cleanDf_desc df out h
  have key : ∀ s, (i, s) ∈ out.rows →
      s.get c = resolveBool (decodedVals df c) (normStrCell (replaceCell r.track))
        (decodeBoolCell (replaceCell (r.get c))) ∧ s.get c ≠ .na := by
    intro s hsmem
    rw [hrows] at hsmem
    have hs2 := List.mem_filter.mp hsmem
    have hcomp := hs2.2
    rw [rowComplete_iff] at hcomp
    have hrel := forall₂_get_of_nodup hfa (fun p q hpq => hpq.1) hnd hir hs2.1
    have hdc := hrel.2.1 c hc
    rw [finalCell_bool df c hcl] at hdc
    exact ⟨Option.some.inj hdc, hcomp c hc⟩
  constructor
  · intro hvs s hsmem
    rw [(key s hsmem).1]
    unfold resolveBool
    rw [if_pos hna, if_neg htr]
    cases hvals : decodedVals df c (normStrCell (replaceCell r.track)) with
    | nil => exact absurd hvals hvs
    | cons a l =>
      by_cases hlt : (a :: l).count false < (a :: l).count true
      · refine ⟨true, ?_, ?_, ?_⟩
        · show Cell.bool (decide ((a :: l).count false < (a :: l).count true)) =
            Cell.bool true
          rw [decide_eq_true hlt]
        · simp only [Bool.not_true]
          omega
        · intro heq
          omega
      · refine ⟨false, ?_, ?_, ?_⟩
        · show Cell.bool (decide ((a :: l).count false < (a :: l).count true)) =
            Cell.bool false
          rw [decide_eq_false hlt]
        · simp only [Bool.not_false]
          omega
        · intro heq
          rfl
  · intro hvs hmem
    obtain ⟨⟨i2, s⟩, hsmem, hi2⟩ := List.mem_map.mp hmem
    cases hi2
    have hk := key s hsmem
    apply hk.2
    rw [hk.1]
    unfold resolveBool
    rw [if_pos hna, if_neg htr, hvs]

/-! ### Claim C6: imputation is group-local -/

theorem forall₂_zip_trans {α β : Type} {R1 R2 : α → β → Prop} {S : β → β → Prop}
    {l : List α} {m1 m2 : List β} (h1 : List.Forall₂ R1 l m1) (h2 : List.Forall₂ R2 l m2)
    (hS : ∀ a b c, R1 a b → R2 a c → S b c) : List.Forall₂ S m1 m2 := by
  induction h1 generalizing m2 with
  | nil =>
    cases h2
    exact List.Forall₂.nil
  | cons hr hl ih =>
    cases h2 with
    | cons hr2 hl2 => exact List.Forall₂.cons (hS _ _ _ hr hr2) (ih hl2)

theorem forall₂_append_split {α β : Type} {R : α → β → Prop} {l1 l2 : List α} {m : List β}
    (h : List.Forall₂ R (l1 ++ l2) m) :
    ∃ m1 m2, m = m1 ++ m2 ∧ List.Forall₂ R l1 m1 ∧ List.Forall₂ R l2 m2 := by
  induction l1 generalizing m with
  | nil => exact ⟨[], m, rfl, List.Forall₂.nil, h⟩
  | cons a l1 ih =>
    cases h with
    | cons hr hrest =>
      obtain ⟨m1, m2, rfl, hm1, hm2⟩ := ih hrest
      exact ⟨_ :: m1, m2, rfl, List.Forall₂.cons hr hm1, hm2⟩

theorem forall₂_append_both {α β : Type} {R : α → β → Prop} {l1 l2 : List α}
    {m1 m2 : List β} (h1 : List.Forall₂ R l1 m1) (h2 : List.Forall₂ R l2 m2) :
    List.Forall₂ R (l1 ++ l2) (m1 ++ m2) := by
  induction h1 with
  | nil => exact h2
  | cons hr hl ih => exact List.Forall₂.cons hr ih

theorem filter_eq_of_forall₂ {α : Type} {R : α → α → Prop} {l1 l2 : List α}
    (h : List.Forall₂ R l1 l2) (p : α → Bool)
    (hR : ∀ a b, R a b → a = b ∨ (p a = false ∧ p b = false)) :
    l1.filter p = l2.filter p := by
  induction h with
  | nil => rfl
  | cons hr hl ih =>
    rename_i a b l1 l2
    rcases hR a b hr with he | ⟨hpa, hpb⟩
    · subst he
      rw [List.filter_cons, List.filter_cons]
      cases hp : p a <;> simp [hp, ih]
    · rw [List.filter_cons, List.filter_cons, hpa, hpb]
      exact ih

theorem filter_filter_and {α : Type} (l : List α) (p q : α → Bool) :
    (l.filter p).filter q = l.filter (fun a => p a && q a) := by
  induction l with
  | nil => rfl
  | cons a l ih =>
    cases hp : p a <;> cases hq : q a <;>
      simp [List.filter_cons, hp, hq, ih]

theorem resolveScore_congr {v1 v2 : Cell → List ℚ} (t w : Cell) (h : v1 t = v2 t) :
    resolveScore v1 t w = resolveScore v2 t w := by
  unfold resolveScore
  rw [h]

theorem resolveBool_congr {v1 v2 : Cell → List Bool} (t w : Cell) (h : v1 t = v2 t) :
    resolveBool v1 t w = resolveBool v2 t w := by
  unfold resolveBool
  rw [h]

theorem validVals_ne (cols : List Col) (A B : List (ℕ × Row)) (p1 p2 : ℕ × Row)
    (c : Col) (t : Cell) (htr : p1.2.track = p2.2.track)
    (ht : t ≠ normStrCell (replaceCell p1.2.track)) :
    validVals ⟨cols, A ++ p1 :: B⟩ c t = validVals ⟨cols, A ++ p2 :: B⟩ c t := by
  unfold validVals
  show (A ++ p1 :: B).filterMap _ = (A ++ p2 :: B).filterMap _
  rw [List.filterMap_append, List.filterMap_append, List.filterMap_cons, List.filterMap_cons]
  have h1 : normStrCell (replaceCell p1.2.track) ≠ t := fun he => ht he.symm
  rw [if_neg h1, ← htr, if_neg h1]

theorem decodedVals_ne (cols : List Col) (A B : List (ℕ × Row)) (p1 p2 : ℕ × Row)
    (c : Col) (t : Cell) (htr : p1.2.track = p2.2.track)
    (ht : t ≠ normStrCell (replaceCell p1.2.track)) :
    decodedVals ⟨cols, A ++ p1 :: B⟩ c t = decodedVals ⟨cols, A ++ p2 :: B⟩ c t := by
  unfold decodedVals
  show (A ++ p1 :: B).filterMap _ = (A ++ p2 :: B).filterMap _
  rw [List.filterMap_append, List.filterMap_append, List.filterMap_cons, List.filterMap_cons]
  have h1 : normStrCell (replaceCell p1.2.track) ≠ t := fun he => ht he.symm
  rw [if_neg h1, ← htr, if_neg h1]

/-- Claim C6: group-local imputation.  Two input frames that agree on the
column set and on every row except one position, whose row keeps its raw
`Track` cell (the changed value is any other field), produce cleaned
outputs that agree on every record outside that row's track group — in
particular every imputed value of every other track is identical. -/
theorem c6_imputation_group_local (cols : List Col) (A B : List (ℕ × Row))
    (p1 p2 : ℕ × Row) (o1 o2 : DF) (hc : Col.track ∈ cols)
    (_hidx : p1.1 = p2.1) (htr : p1.2.track = p2.2.track)
    (h1 : cleanDf ⟨cols, A ++ p1 :: B⟩ = some o1)
    (h2 : cleanDf ⟨cols, A ++ p2 :: B⟩ = some o2) :
    o1.rows.filter (fun q => decide (q.2.track ≠ normStrCell (replaceCell p1.2.track))) =
    o2.rows.filter (fun q => decide (q.2.track ≠ normStrCell (replaceCell p1.2.track))) := by
  obtain ⟨hcols1, mid1, hfa1, hrows1⟩ := cleanDf_desc _ o1 h1
  obtain ⟨hcols2, mid2, hfa2, hrows2⟩ := cleanDf_desc _ o2 h2
  obtain ⟨mA1, rest1, rfl, hA1, hr1⟩ := forall₂_append_split hfa1
  cases hr1 with
  | cons hj1 hB1 =>
  rename_i q1 mB1
  obtain ⟨mA2, rest2, rfl, hA2, hr2⟩ := forall₂_append_split hfa2
  cases hr2 with
  | cons hj2 hB2 =>
  rename_i q2 mB2
  -- pointwise relation between the two runs
  have perElem : ∀ (a b c : ℕ × Row),
      midDesc ⟨cols, A ++ p1 :: B⟩ a b → midDesc ⟨cols, A ++ p2 :: B⟩ a c →
      b = c ∨ (b.2.track = normStrCell (replaceCell p1.2.track) ∧
        c.2.track = normStrCell (replaceCell p1.2.track)) := by
    intro a b c hd1 hd2
    by_cases hT : normStrCell (replaceCell a.2.track) = normStrCell (replaceCell p1.2.track)
    · refine Or.inr ⟨?_, ?_⟩
      · have := Option.some.inj (hd1.2.1 Col.track hc)
        exact this.trans hT
      · have := Option.some.inj (hd2.2.1 Col.track hc)
        exact this.trans hT
    · refine Or.inl ?_
      have hfst : b.1 = c.1 := hd1.1.trans hd2.1.symm
      have hsnd : b.2 = c.2 := by
        apply Row.eq_of_get
        intro c0
        by_cases hcc : c0 ∈ cols
        · have hfc : finalCell ⟨cols, A ++ p1 :: B⟩ c0 a.2.track (a.2.get c0) =
              finalCell ⟨cols, A ++ p2 :: B⟩ c0 a.2.track (a.2.get c0) := by
            cases c0 with
            | math => exact congrArg some (resolveScore_congr _ _ (validVals_ne cols A B p1 p2 _ _ htr hT))
            | english => exact congrArg some (resolveScore_congr _ _ (validVals_ne cols A B p1 p2 _ _ htr hT))
            | science => exact congrArg some (resolveScore_congr _ _ (validVals_ne cols A B p1 p2 _ _ htr hT))
            | history => exact congrArg some (resolveScore_congr _ _ (validVals_ne cols A B p1 p2 _ _ htr hT))
            | attendance => exact congrArg some (resolveScore_congr _ _ (validVals_ne cols A B p1 p2 _ _ htr hT))
            | projectScore => exact congrArg some (resolveScore_congr _ _ (validVals_ne cols A B p1 p2 _ _ htr hT))
            | incomeStudent => exact congrArg some (resolveBool_congr _ _ (decodedVals_ne cols A B p1 p2 _ _ htr hT))
            | passed => exact congrArg some (resolveBool_congr _ _ (decodedVals_ne cols A B p1 p2 _ _ htr hT))
            | studentID => rfl
            | term => rfl
            | track => rfl
            | cohort => rfl
            | className => rfl
            | firstName => rfl
            | lastName => rfl
          have e1 := hd1.2.1 c0 hcc
          have e2 := hd2.2.1 c0 hcc
          rw [hfc] at e1
          exact Option.some.inj (e1.trans e2.symm)
        · exact (hd1.2.2 c0 hcc).trans (hd2.2.2 c0 hcc).symm
      exact Prod.ext hfst hsnd
  have SM : List.Forall₂ (fun b c : ℕ × Row =>
      b = c ∨ (b.2.track = normStrCell (replaceCell p1.2.track) ∧
        c.2.track = normStrCell (replaceCell p1.2.track)))
      (mA1 ++ q1 :: mB1) (mA2 ++ q2 :: mB2) := by
    refine forall₂_append_both (forall₂_zip_trans hA1 hA2 perElem) ?_
    refine List.Forall₂.cons ?_ (forall₂_zip_trans hB1 hB2 perElem)
    refine Or.inr ⟨?_, ?_⟩
    · exact Option.some.inj (hj1.2.1 Col.track hc)
    · exact (Option.some.inj (hj2.2.1 Col.track hc)).trans
        (congrArg (fun v => normStrCell (replaceCell v)) htr.symm)
  rw [hrows1, hrows2]
  rw [filter_filter_and, filter_filter_and]
  refine filter_eq_of_forall₂ SM _ (fun a b hab => ?_)
  rcases hab with he | ⟨ha, hb⟩
  · exact Or.inl he
  · refine Or.inr ⟨?_, ?_⟩
    · rw [ha]
      simp
    · rw [hb]
      simp

/-! ### Claims C7 and C10: deduplication -/

theorem keepFirst_sublist (l : List (ℕ × Row)) (seen : List (Cell × Cell × Cell)) :
    (keepFirst l seen).Sublist l := by
  induction l generalizing seen with
  | nil => exact List.Sublist.refl _
  | cons p l ih =>
    unfold keepFirst
    by_cases hmem : dupKey p.2 ∈ seen
    · rw [if_pos hmem]
      exact (ih seen).trans (List.sublist_cons_self p l)
    · rw [if_neg hmem]
      exact List.Sublist.cons₂ p (ih _)

theorem keepFirst_keys (l : List (ℕ × Row)) (seen : List (Cell × Cell × Cell)) :
    ((keepFirst l seen).map (fun p => dupKey p.2)).Nodup ∧
    ∀ k ∈ (keepFirst l seen).map (fun p => dupKey p.2), k ∉ seen := by
  induction l generalizing seen with
  | nil => exact ⟨List.nodup_nil, fun k hk => absurd hk (by simp [keepFirst])⟩
  | cons p l ih =>
    unfold keepFirst
    by_cases hmem : dupKey p.2 ∈ seen
    · rw [if_pos hmem]
      exact ih seen
    · rw [if_neg hmem]
      obtain ⟨ihn, ihs⟩ := ih (dupKey p.2 :: seen)
      refine ⟨?_, ?_⟩
      · rw [List.map_cons, List.nodup_cons]
        exact ⟨fun hk => (ihs _ hk) (by simp), ihn⟩
      · intro k hk
        rw [List.map_cons, List.mem_cons] at hk
        rcases hk with hk | hk
        · exact hk ▸ hmem
        · intro hks
          exact ihs k hk (by simp [hks])

theorem keepFirst_id (l : List (ℕ × Row)) (seen : List (Cell × Cell × Cell))
    (hnd : (l.map (fun p => dupKey p.2)).Nodup)
    (hdis : ∀ p ∈ l, dupKey p.2 ∉ seen) : keepFirst l seen = l := by
  induction l generalizing seen with
  | nil => rfl
  | cons p l ih =>
    unfold keepFirst
    rw [if_neg (hdis p (by simp))]
    rw [List.map_cons, List.nodup_cons] at hnd
    congr 1
    refine ih _ hnd.2 (fun q hq hqs => ?_)
    rcases List.mem_cons.mp hqs with hq2 | hq2
    · exact hnd.1 (hq2 ▸ List.mem_map.mpr ⟨q, hq, rfl⟩)
    · exact hdis q (by simp [hq]) hq2

theorem keepFirst_filter_key (l : List (ℕ × Row)) (seen : List (Cell × Cell × Cell))
    (k : Cell × Cell × Cell) :
    (keepFirst l seen).filter (fun p => decide (dupKey p.2 = k)) =
      if k ∈ seen then []
      else (l.filter (fun p => decide (dupKey p.2 = k))).take 1 := by
  induction l generalizing seen with
  | nil =>
    unfold keepFirst
    simp
  | cons p l ih =>
    unfold keepFirst
    by_cases hmem : dupKey p.2 ∈ seen
    · rw [if_pos hmem, ih seen, List.filter_cons]
      by_cases hk : dupKey p.2 = k
      · have hks : k ∈ seen := hk ▸ hmem
        rw [if_pos hks, if_pos hks]
      · have hd : ¬(decide (dupKey p.2 = k) = true) := by simp [hk]
        rw [if_neg hd]
    · rw [if_neg hmem, List.filter_cons, List.filter_cons]
      by_cases hk : dupKey p.2 = k
      · have hd : decide (dupKey p.2 = k) = true := by simp [hk]
        rw [if_pos hd, if_pos hd, ih (dupKey p.2 :: seen)]
        have hks : k ∈ dupKey p.2 :: seen := by simp [hk]
        rw [if_pos hks]
        have hkn : k ∉ seen := fun hc => hmem (hk ▸ hc)
        rw [if_neg hkn]
        rfl
      · have hd : ¬(decide (dupKey p.2 = k) = true) := by simp [hk]
        rw [if_neg hd, if_neg hd, ih (dupKey p.2 :: seen)]
        by_cases hks : k ∈ seen
        · rw [if_pos (List.mem_cons_of_mem _ hks), if_pos hks]
        · have hkn : k ∉ dupKey p.2 :: seen := fun hc =>
            (List.mem_cons.mp hc).elim (fun he => hk he.symm) hks
          rw [if_neg hkn, if_neg hks]

theorem sortIdx_sorted (rows : List (ℕ × Row)) :
    List.Sorted (fun p q : ℕ × Row => p.1 ≤ q.1) (sortIdx rows) := by
  haveI : IsTotal (ℕ × Row) (fun p q => p.1 ≤ q.1) := ⟨fun a b => Nat.le_total a.1 b.1⟩
  haveI : IsTrans (ℕ × Row) (fun p q => p.1 ≤ q.1) :=
    ⟨fun a b c hab hbc => Nat.le_trans hab hbc⟩
  exact List.sorted_insertionSort _ rows

/-- Claim C7: deduplication is idempotent, and a single application
keeps, within each (`StudentID`, `Term`, `Track`) key group, exactly the
first row of the index-sorted (original-order) row list. -/
theorem c7_dedup_idempotent_first (df out : DF) (h : dropDuplicates df = some out) :
    dropDuplicates out = some out ∧
    (Col.studentID ∈ df.cols ∧ Col.term ∈ df.cols →
      ∀ k, out.rows.filter (fun p => decide (dupKey p.2 = k)) =
        ((sortIdx df.rows).filter (fun p => decide (dupKey p.2 = k))).take 1) := by
  unfold dropDuplicates at h
  by_cases hg : Col.studentID ∈ df.cols ∧ Col.term ∈ df.cols
  · rw [if_pos hg] at h
    by_cases htr : Col.track ∈ df.cols
    · rw [if_pos htr] at h
      cases h
      have hsorted : List.Sorted (fun p q : ℕ × Row => p.1 ≤ q.1)
          (keepFirst (sortIdx df.rows) []) :=
        List.Pairwise.sublist (keepFirst_sublist _ _) (sortIdx_sorted df.rows)
      constructor
      · have hfix : sortIdx (keepFirst (sortIdx df.rows) []) =
            keepFirst (sortIdx df.rows) [] :=
          List.Sorted.insertionSort_eq hsorted
        unfold dropDuplicates
        dsimp only
        rw [if_pos hg, if_pos htr, hfix,
          keepFirst_id _ [] (keepFirst_keys _ _).1 (fun p hp => by simp)]
      · intro hg2 k
        show (keepFirst (sortIdx df.rows) []).filter _ = _
        rw [keepFirst_filter_key]
        simp
    · rw [if_neg htr] at h
      cases h
  · rw [if_neg hg] at h
    cases h
    refine ⟨?_, fun hg2 => absurd hg2 hg⟩
    unfold dropDuplicates
    rw [if_neg hg]

/-- Claim C10: when the frame lacks `StudentID` or `Term`,
`drop_duplicates` returns its input unchanged — no row removed, no
reordering, no error. -/
theorem c10_dedup_skip (df : DF)
    (h : Col.studentID ∉ df.cols ∨ Col.term ∉ df.cols) :
    dropDuplicates df = some df := by
  unfold dropDuplicates
  rw [if_neg (fun hg => by rcases h with h | h <;> [exact h hg.1; exact h hg.2])]

/-! ### C9: ordering of the summary tables -/

theorem lexLe_total (a b : List Char) : lexLe a b = true ∨ lexLe b a = true := by
  induction a generalizing b with
  | nil => left; rfl
  | cons x xs ih =>
    cases b with
    | nil => right; rfl
    | cons y ys =>
      unfold lexLe
      by_cases h1 : x.toNat < y.toNat
      · left; rw [if_pos h1]
      · by_cases h2 : y.toNat < x.toNat
        · right; rw [if_pos h2]
        · rw [if_neg h1, if_neg h2, if_neg h2, if_neg h1]
          exact ih ys

theorem lexLe_trans (a b c : List Char) (hab : lexLe a b = true)
    (hbc : lexLe b c = true) : lexLe a c = true := by
  induction a generalizing b c with
  | nil => rfl
  | cons x xs ih =>
    cases b with
    | nil => exact absurd hab (by simp [lexLe])
    | cons y ys =>
      cases c with
      | nil => exact absurd hbc (by simp [lexLe])
      | cons z zs =>
        unfold lexLe at hab hbc ⊢
        by_cases hxy : x.toNat < y.toNat
        · by_cases hyz : y.toNat < z.toNat
          · rw [if_pos (Nat.lt_trans hxy hyz)]
          · rw [if_neg hyz] at hbc
            by_cases hzy : z.toNat < y.toNat
            · rw [if_pos hzy] at hbc
              exact absurd hbc (by simp)
            · have hxz : x.toNat < z.toNat := by omega
              rw [if_pos hxz]
        · rw [if_neg hxy] at hab
          by_cases hyx : y.toNat < x.toNat
          · rw [if_pos hyx] at hab
            exact absurd hab (by simp)
          · rw [if_neg hyx] at hab
            by_cases hyz : y.toNat < z.toNat
            · have hxz : x.toNat < z.toNat := by omega
              rw [if_pos hxz]
            · rw [if_neg hyz] at hbc
              by_cases hzy : z.toNat < y.toNat
              · rw [if_pos hzy] at hbc
                exact absurd hbc (by simp)
              · rw [if_neg hzy] at hbc
                have hxz : ¬x.toNat < z.toNat := by omega
                have hzx : ¬z.toNat < x.toNat := by omega
                rw [if_neg hxz, if_neg hzx]
                exact ih ys zs hab hbc

theorem distinctAux_nodup (l seen : List String) :
    (distinctAux l seen).Nodup ∧ ∀ s ∈ distinctAux l seen, s ∉ seen := by
  induction l generalizing seen with
  | nil => exact ⟨List.nodup_nil, fun s hs => absurd hs (by simp [distinctAux])⟩
  | cons x xs ih =>
    unfold distinctAux
    by_cases hmem : x ∈ seen
    · rw [if_pos hmem]
      exact ih seen
    · rw [if_neg hmem]
      obtain ⟨ihn, ihs⟩ := ih (x :: seen)
      refine ⟨List.nodup_cons.mpr ⟨fun hx => (ihs x hx) (by simp), ihn⟩, ?_⟩
      intro s hs
      rcases List.mem_cons.mp hs with h | h
      · exact h ▸ hmem
      · exact fun hss => ihs s h (by simp [hss])

theorem sortedTracks_ascending (df : DF) : List.Sorted strle (sortedTracks df) := by
  haveI : IsTotal String strle := ⟨fun a b => lexLe_total a.data b.data⟩
  haveI : IsTrans String strle := ⟨fun a b c => lexLe_trans a.data b.data c.data⟩
  exact List.sorted_insertionSort strle _

theorem sortedTracks_nodup (df : DF) : (sortedTracks df).Nodup :=
  ((List.perm_insertionSort strle _).nodup_iff).mpr (distinctAux_nodup _ _).1

theorem map_fst_map_pair {β : Type} (L : List String) (f : String → β) :
    ((L.map (fun t => (t, f t))).map Prod.fst) = L := by
  induction L with
  | nil => rfl
  | cons x xs ih => simp [ih]

/-- Claim C9: the counts table is sorted by descending count, and every
other per-track summary table (average scores, attendance and project
means, pass rate) lists its rows in ascending sorted order of the track
key with no duplicate keys — first-appearance order plays no role — and
each table is computed by a function of the input frame alone. -/
theorem c9_table_order (df : DF) :
    (∀ tbl, nbStudents df = some tbl → List.Sorted cntGe tbl) ∧
    (∀ tbl, avgScores df = some tbl → tbl.map Prod.fst = sortedTracks df ∧
      List.Sorted strle (tbl.map Prod.fst) ∧ (tbl.map Prod.fst).Nodup) ∧
    (∀ c tbl, avgByTrack df c = some tbl → tbl.map Prod.fst = sortedTracks df ∧
      List.Sorted strle (tbl.map Prod.fst) ∧ (tbl.map Prod.fst).Nodup) ∧
    (∀ tbl, passRate df = some tbl → tbl.map Prod.fst = sortedTracks df ∧
      List.Sorted strle (tbl.map Prod.fst) ∧ (tbl.map Prod.fst).Nodup) := by
  have hs := sortedTracks_ascending df
  have hn := sortedTracks_nodup df
  refine ⟨?_, ?_, ?_, ?_⟩
  · intro tbl h
    unfold nbStudents at h
    by_cases htr : Col.track ∈ df.cols
    · rw [if_pos htr] at h
      cases h
      haveI : IsTotal (String × ℕ) cntGe := ⟨fun a b => Nat.le_total b.2 a.2⟩
      haveI : IsTrans (String × ℕ) cntGe :=
        ⟨fun a b c hab hbc => Nat.le_trans hbc hab⟩
      exact List.sorted_insertionSort cntGe _
    · rw [if_neg htr] at h
      cases h
  · intro tbl h
    unfold avgScores at h
    split at h
    · cases h
      refine ⟨map_fst_map_pair _ _, ?_, ?_⟩
      · rw [map_fst_map_pair]
        exact hs
      · rw [map_fst_map_pair]
        exact hn
    · cases h
  · intro c tbl h
    unfold avgByTrack at h
    split at h
    · cases h
      refine ⟨map_fst_map_pair _ _, ?_, ?_⟩
      · rw [map_fst_map_pair]
        exact hs
      · rw [map_fst_map_pair]
        exact hn
    · cases h
  · intro tbl h
    unfold passRate at h
    split at h
    · cases h
      refine ⟨map_fst_map_pair _ _, ?_, ?_⟩
      · rw [map_fst_map_pair]
        exact hs
      · rw [map_fst_map_pair]
        exact hn
    · cases h

/-! ### C5: tolerance of absent columns -/

/-- Claim C5 (amended): each *pipeline* stage guarded by `if c in df`
skips an absent column without error (the frame passes through
unchanged), and `drop_duplicates` skips when `StudentID` or `Term` is
absent; but the *summary* computations do not skip — a column lookup on
an absent field raises a `KeyError` (modelled as `none`). -/
theorem c5_absent_column_tolerance (df : DF) (c : Col) (hc : c ∉ df.cols) :
    (∀ f, applyCol df c f = df) ∧
    (∀ f, applyColM df c f = some df) ∧
    scoreStep df c = some df ∧
    boolStep df c = some df ∧
    (c = Col.studentID ∨ c = Col.term → dropDuplicates df = some df) ∧
    avgByTrack df c = none ∧
    (c = Col.passed → passRate df = none) ∧
    (c = Col.track → nbStudents df = none) ∧
    (c = Col.attendance ∨ c = Col.projectScore ∨ c = Col.track →
      trackCorrTable df = none) := by
  refine ⟨?_, ?_, ?_, ?_, ?_, ?_, ?_, ?_, ?_⟩
  · intro f
    unfold applyCol
    rw [if_neg hc]
  · intro f
    unfold applyColM
    rw [if_neg hc]
  · unfold scoreStep
    rw [if_neg hc]
  · unfold boolStep
    rw [if_neg hc]
  · intro hd
    have hng : ¬(Col.studentID ∈ df.cols ∧ Col.term ∈ df.cols) := by
      rintro ⟨h1, h2⟩
      rcases hd with rfl | rfl
      · exact hc h1
      · exact hc h2
    unfold dropDuplicates
    rw [if_neg hng]
  · unfold avgByTrack
    rw [if_neg (fun hg => hc hg.2)]
  · intro he
    subst he
    unfold passRate
    rw [if_neg (fun hg => hc hg.2)]
  · intro he
    subst he
    unfold nbStudents
    rw [if_neg hc]
  · intro hd
    unfold trackCorrTable
    rcases hd with rfl | rfl | rfl
    · rw [if_neg (fun hg => hc hg.2.1)]
    · rw [if_neg (fun hg => hc hg.2.2)]
    · rw [if_neg (fun hg => hc hg.1)]

/-- An all-missing row, used to build concrete example frames. -/
def naRow : Row :=
  ⟨.na, .na, .na, .na, .na, .na, .na, .na, .na, .na, .na, .na, .na, .na, .na⟩

/-- A frame with a `Track` column only: the shape `clean_df` produces
when the raw workbook lacks the `Passed (Y/N)` column. -/
def c5df : DF := ⟨[Col.track], [(0, { naRow with track := .str "Alpha" })]⟩

/-- Counterexample to claim C5 as stated: with `Passed (Y/N)` absent the
pipeline stages indeed skip it, but the `pass_rate` summary does not
skip the absent field — `df.groupby('Track')['Passed (Y/N)']` raises a
`KeyError`, modelled as `none`, instead of producing a table. -/
theorem c5_counterexample :
    Col.passed ∉ c5df.cols ∧
    boolStep c5df Col.passed = some c5df ∧
    passRate c5df = none := by
  refine ⟨by decide, rfl, rfl⟩

/-! ### C2: the counterexample to the first-encountered tie rule -/

/-- The tie rule the claim's words describe (NOT what the code does):
the most frequent decoded value of the group, ties broken by the first
value in input order whose count is maximal. -/
def specFirstMode (l : List Bool) : Option Bool :=
  l.find? (fun b => decide (l.count (!b) ≤ l.count b))

/-- Raw boolean values `["Y", "N", "bogus"]` in one track: a 1-1 tie
between `true` and `false` after decoding. -/
def c2df : DF :=
  ⟨[Col.track, Col.passed],
    [(0, { naRow with track := .str "T", passed := .str "Y" }),
     (1, { naRow with track := .str "T", passed := .str "N" }),
     (2, { naRow with track := .str "T", passed := .str "bogus" })]⟩

/-- Counterexample to C2's tie rule: the decoded group values in input
order are `[true, false]`, whose first-encountered mode is `true`; but
`x.mode(dropna=True)` sorts the modes ascending, so `.iloc[0]` imputes
`false` — the cleaned frame holds `false` in the third row. -/
theorem c2_counterexample :
    decodedVals c2df Col.passed (.str "T") = [true, false] ∧
    specFirstMode (decodedVals c2df Col.passed (.str "T")) = some true ∧
    (cleanDf c2df).map (fun o => o.rows.map (fun p => (p.1, p.2.passed))) =
      some [(0, .bool true), (1, .bool false), (2, .bool false)] := by
  refine ⟨by decide, by decide, by decide⟩

/-! ### C4: variance facts for the correlation table -/

theorem sum_sq_nonneg_about (l : List ℚ) (c : ℚ) :
    0 ≤ (l.map (fun v => (v - c) ^ 2)).sum := by
  induction l with
  | nil => simp
  | cons a t ih =>
    simp only [List.map_cons, List.sum_cons]
    exact add_nonneg (sq_nonneg _) ih

theorem sum_sq_identity (l : List ℚ) (c : ℚ) :
    (l.map (fun v => (v - c) ^ 2)).sum =
      (l.map (fun v => v ^ 2)).sum - 2 * c * l.sum + l.length * c ^ 2 := by
  induction l with
  | nil => simp
  | cons a t ih =>
    simp only [List.map_cons, List.sum_cons, List.length_cons, ih]
    push_cast
    ring

theorem sum_sq_eq_zero_iff (l : List ℚ) (c : ℚ) :
    (l.map (fun v => (v - c) ^ 2)).sum = 0 ↔ ∀ v ∈ l, v = c := by
  induction l with
  | nil => simp
  | cons a t ih =>
    simp only [List.map_cons, List.sum_cons, List.mem_cons]
    have h1 := sq_nonneg (a - c)
    have h2 := sum_sq_nonneg_about t c
    constructor
    · intro h
      have ha : (a - c) ^ 2 = 0 := by linarith
      have ht : (t.map (fun v => (v - c) ^ 2)).sum = 0 := by linarith
      have ha2 : a = c :=
        sub_eq_zero.mp (pow_eq_zero_iff (by norm_num : (2:ℕ) ≠ 0) |>.mp ha)
      intro v hv
      rcases hv with rfl | hv
      · exact ha2
      · exact (ih.mp ht) v hv
    · intro h
      have ha2 : a = c := h a (Or.inl rfl)
      rw [ih.mpr (fun v hv => h v (Or.inr hv)), ha2]
      simp

theorem sum_of_const (l : List ℚ) (c : ℚ) (h : ∀ v ∈ l, v = c) :
    l.sum = l.length * c := by
  induction l with
  | nil => simp
  | cons a t ih =>
    simp only [List.sum_cons, List.length_cons]
    rw [h a (by simp), ih (fun v hv => h v (by simp [hv]))]
    push_cast
    ring

theorem sxx_key (l : List ℚ) (hl : l ≠ []) :
    (l.length : ℚ) * (l.map (fun v => (v - l.sum / l.length) ^ 2)).sum =
      (l.length : ℚ) * (l.map (fun v => v ^ 2)).sum - l.sum ^ 2 := by
  have hn : (0:ℚ) < l.length := by
    cases l with
    | nil => exact absurd rfl hl
    | cons a t => exact_mod_cast Nat.succ_pos t.length
  have hne : (l.length : ℚ) ≠ 0 := ne_of_gt hn
  rw [sum_sq_identity]
  field_simp
  ring

theorem sxx_nonneg (l : List ℚ) :
    0 ≤ (l.length : ℚ) * (l.map (fun v => v ^ 2)).sum - l.sum ^ 2 := by
  rcases eq_or_ne l [] with rfl | hl
  · simp
  · have hn : (0:ℚ) < l.length := by
      cases l with
      | nil => exact absurd rfl hl
      | cons a t => exact_mod_cast Nat.succ_pos t.length
    rw [← sxx_key l hl]
    exact mul_nonneg hn.le (sum_sq_nonneg_about l (l.sum / l.length))

theorem sxx_eq_zero_iff (l : List ℚ) (hl : l ≠ []) :
    (l.length : ℚ) * (l.map (fun v => v ^ 2)).sum - l.sum ^ 2 = 0 ↔
      ∀ a ∈ l, ∀ b ∈ l, a = b := by
  have hn : (0:ℚ) < l.length := by
    cases l with
    | nil => exact absurd rfl hl
    | cons a t => exact_mod_cast Nat.succ_pos t.length
  have hne : (l.length : ℚ) ≠ 0 := ne_of_gt hn
  constructor
  · intro h
    rw [← sxx_key l hl] at h
    have hz : (l.map (fun v => (v - l.sum / l.length) ^ 2)).sum = 0 := by
      rcases mul_eq_zero.mp h with h' | h'
      · exact absurd h' hne
      · exact h'
    have hc := (sum_sq_eq_zero_iff l (l.sum / l.length)).mp hz
    intro a ha b hb
    rw [hc a ha, hc b hb]
  · intro h
    obtain ⟨a, t, rfl⟩ : ∃ a t, l = a :: t := by
      cases l with
      | nil => exact absurd rfl hl
      | cons a t => exact ⟨a, t, rfl⟩
    have hall : ∀ v ∈ a :: t, v = a := fun v hv => h v hv a (by simp)
    have hs := sum_of_const (a :: t) a hall
    have hsq : ∀ w ∈ (a :: t).map (fun v => v ^ 2), w = a ^ 2 := by
      intro w hw
      obtain ⟨v, hv, rfl⟩ := List.mem_map.mp hw
      rw [hall v hv]
    have hq := sum_of_const _ (a ^ 2) hsq
    rw [List.length_map] at hq
    rw [hs, hq]
    ring

theorem qSxx_eq (g : List (ℚ × ℚ)) :
    qSxx g = (g.length : ℚ) * ((g.map Prod.fst).map (fun v => v ^ 2)).sum -
      (g.map Prod.fst).sum ^ 2 := by
  unfold qSxx sumFst
  rw [qsub_eq, qmulNat_eq, qmul_eq, qsum_eq, qsum_eq, List.map_map]
  rw [List.map_congr_left
    (fun (p : ℚ × ℚ) _ => (qmul_eq p.1 p.1).trans (pow_two p.1).symm :
      ∀ p ∈ g, qmul p.1 p.1 = ((fun v => v ^ 2) ∘ Prod.fst) p)]
  · ring

theorem qSyy_eq (g : List (ℚ × ℚ)) :
    qSyy g = (g.length : ℚ) * ((g.map Prod.snd).map (fun v => v ^ 2)).sum -
      (g.map Prod.snd).sum ^ 2 := by
  unfold qSyy sumSnd
  rw [qsub_eq, qmulNat_eq, qmul_eq, qsum_eq, qsum_eq, List.map_map]
  rw [List.map_congr_left
    (fun (p : ℚ × ℚ) _ => (qmul_eq p.2 p.2).trans (pow_two p.2).symm :
      ∀ p ∈ g, qmul p.2 p.2 = ((fun v => v ^ 2) ∘ Prod.snd) p)]
  · ring

theorem qSxy_eq (g : List (ℚ × ℚ)) :
    qSxy g = (g.length : ℚ) * (g.map (fun p => p.1 * p.2)).sum -
      (g.map Prod.fst).sum * (g.map Prod.snd).sum := by
  unfold qSxy sumFst sumSnd
  rw [qsub_eq, qmulNat_eq, qmul_eq, qsum_eq, qsum_eq, qsum_eq]
  rw [List.map_congr_left (fun (p : ℚ × ℚ) _ => qmul_eq p.1 p.2)]
  ring

theorem qSxx_nonneg (g : List (ℚ × ℚ)) : 0 ≤ qSxx g := by
  rw [qSxx_eq]
  have h := sxx_nonneg (g.map Prod.fst)
  rwa [List.length_map] at h

theorem qSyy_nonneg (g : List (ℚ × ℚ)) : 0 ≤ qSyy g := by
  rw [qSyy_eq]
  have h := sxx_nonneg (g.map Prod.snd)
  rwa [List.length_map] at h

theorem qSxx_eq_zero_iff (g : List (ℚ × ℚ)) (hg : g ≠ []) :
    qSxx g = 0 ↔ ∀ p ∈ g, ∀ q ∈ g, p.1 = q.1 := by
  have hmap : g.map Prod.fst ≠ [] := by
    cases g with
    | nil => exact absurd rfl hg
    | cons a t => simp
  have h := sxx_eq_zero_iff (g.map Prod.fst) hmap
  rw [List.length_map] at h
  rw [qSxx_eq, h]
  constructor
  · intro hc p hp q hq
    exact hc p.1 (List.mem_map_of_mem _ hp) q.1 (List.mem_map_of_mem _ hq)
  · intro hc a ha b hb
    obtain ⟨p, hp, rfl⟩ := List.mem_map.mp ha
    obtain ⟨q, hq, rfl⟩ := List.mem_map.mp hb
    exact hc p hp q hq

theorem qSyy_eq_zero_iff (g : List (ℚ × ℚ)) (hg : g ≠ []) :
    qSyy g = 0 ↔ ∀ p ∈ g, ∀ q ∈ g, p.2 = q.2 := by
  have hmap : g.map Prod.snd ≠ [] := by
    cases g with
    | nil => exact absurd rfl hg
    | cons a t => simp
  have h := sxx_eq_zero_iff (g.map Prod.snd) hmap
  rw [List.length_map] at h
  rw [qSyy_eq, h]
  constructor
  · intro hc p hp q hq
    exact hc p.2 (List.mem_map_of_mem _ hp) q.2 (List.mem_map_of_mem _ hq)
  · intro hc a ha b hb
    obtain ⟨p, hp, rfl⟩ := List.mem_map.mp ha
    obtain ⟨q, hq, rfl⟩ := List.mem_map.mp hb
    exact hc p hp q hq

/-! ### C4: exact integer computation of floor and round of `A / sqrt D` -/

theorem divSqrt_val (A D : ℚ) (hD : 0 < D) :
    (A : ℝ) / Real.sqrt (D : ℝ) =
      (A.num : ℝ) * Real.sqrt (((D.num.toNat * D.den : ℕ) : ℝ)) /
        ((A.den * D.num.toNat : ℕ) : ℝ) := by
  have hDn : 0 < D.num := Rat.num_pos.mpr hD
  have hDnR : (0:ℝ) < (D.num : ℝ) := by exact_mod_cast hDn
  have hDdR : (0:ℝ) < (D.den : ℝ) := by
    exact_mod_cast Nat.pos_of_ne_zero D.den_nz
  have hAdR : (0:ℝ) < (A.den : ℝ) := by
    exact_mod_cast Nat.pos_of_ne_zero A.den_nz
  have hsn : (0:ℝ) < Real.sqrt (D.num : ℝ) := Real.sqrt_pos.mpr hDnR
  have hsd : (0:ℝ) < Real.sqrt (D.den : ℝ) := Real.sqrt_pos.mpr hDdR
  have hsn2 : Real.sqrt (D.num:ℝ) * Real.sqrt (D.num:ℝ) = (D.num:ℝ) :=
    Real.mul_self_sqrt hDnR.le
  have htn : ((D.num.toNat : ℕ) : ℝ) = (D.num : ℝ) := by
    exact_mod_cast Int.toNat_of_nonneg hDn.le
  rw [Rat.cast_def, Rat.cast_def, Real.sqrt_div hDnR.le]
  push_cast
  rw [htn, Real.sqrt_mul hDnR.le]
  set sn := Real.sqrt (D.num : ℝ) with hsndef
  set sd := Real.sqrt (D.den : ℝ) with hsddef
  rw [← hsn2]
  field_simp
  ring

theorem floorDivSqrt_eq (A D : ℚ) (hD : 0 < D) :
    floorDivSqrt A D = ⌊(A : ℝ) / Real.sqrt (D : ℝ)⌋ := by
  have hDn : 0 < D.num := Rat.num_pos.mpr hD
  have hm : 0 < A.den * D.num.toNat := by
    have h1 : 0 < A.den := Nat.pos_of_ne_zero A.den_nz
    have h2 : 0 < D.num.toNat := by omega
    exact Nat.mul_pos h1 h2
  rw [divSqrt_val A D hD]
  simp only [floorDivSqrt]
  set m : ℕ := A.den * D.num.toNat with hmdef
  set K : ℕ := A.num.natAbs ^ 2 * (D.num.toNat * D.den) with hKdef
  set s : ℕ := Nat.sqrt K with hsdef
  set X : ℝ := Real.sqrt ((D.num.toNat * D.den : ℕ) : ℝ) with hXdef
  have hmR : (0:ℝ) < (m:ℝ) := by exact_mod_cast hm
  have hXnn : 0 ≤ X := Real.sqrt_nonneg _
  have hsqK : Real.sqrt (K:ℝ) = |(A.num : ℝ)| * X := by
    rw [hKdef, hXdef]
    push_cast
    rw [Real.sqrt_mul (by positivity), Real.sqrt_sq_eq_abs, Int.cast_natAbs, Int.cast_abs, abs_abs]
  by_cases hA : 0 ≤ A.num
  · rw [if_pos hA]
    have hx : (A.num : ℝ) * X / (m:ℝ) = Real.sqrt (K:ℝ) / (m:ℝ) := by
      rw [hsqK, abs_of_nonneg (by exact_mod_cast hA)]
    rw [hx]
    rw [← Int.natCast_floor_eq_floor (by positivity), Nat.floor_div_nat,
      Real.nat_floor_real_sqrt_eq_nat_sqrt]
  · rw [if_neg hA]
    push_neg at hA
    have hAR : ((A.num : ℝ)) < 0 := by exact_mod_cast hA
    have hx : (A.num : ℝ) * X / (m:ℝ) = -(Real.sqrt (K:ℝ) / (m:ℝ)) := by
      rw [hsqK, abs_of_neg hAR]
      ring
    rw [hx]
    by_cases hint : s * s = K ∧ m ∣ s
    · rw [if_pos hint]
      have hsqKs : Real.sqrt (K:ℝ) = (s:ℝ) := by
        rw [show ((K:ℕ):ℝ) = ((s:ℝ))^2 by rw [← hint.1]; push_cast; ring]
        exact Real.sqrt_sq (by positivity)
      have hdiv : ((s / m : ℕ) : ℝ) = (s:ℝ) / (m:ℝ) :=
        Nat.cast_div hint.2 (ne_of_gt hmR)
      have hxint : -(Real.sqrt (K:ℝ) / (m:ℝ)) = (((-(s / m : ℕ) : ℤ)):ℝ) := by
        rw [hsqKs, ← hdiv]
        norm_cast
      rw [hxint, Int.floor_intCast]
    · rw [if_neg hint]
      have hsK : (s:ℝ) ≤ Real.sqrt (K:ℝ) := Real.nat_sqrt_le_real_sqrt
      have hsK2 : Real.sqrt (K:ℝ) < (s:ℝ) + 1 := Real.real_sqrt_lt_nat_sqrt_succ
      have hub : Real.sqrt (K:ℝ) / (m:ℝ) < ((s / m : ℕ):ℝ) + 1 := by
        have h1 : m * (s / m) + s % m = s := Nat.div_add_mod s m
        have h2 : s % m < m := Nat.mod_lt s hm
        have hle : (s + 1 : ℕ) ≤ (s / m + 1) * m := by nlinarith [h1, h2]
        have hleR : ((s:ℝ) + 1) ≤ (((s / m : ℕ):ℝ) + 1) * (m:ℝ) := by
          exact_mod_cast hle
        rw [div_lt_iff₀ hmR]
        calc Real.sqrt (K:ℝ) < (s:ℝ) + 1 := hsK2
          _ ≤ (((s / m : ℕ):ℝ) + 1) * (m:ℝ) := hleR
      have hlb : ((s / m : ℕ):ℝ) < Real.sqrt (K:ℝ) / (m:ℝ) := by
        rw [lt_div_iff₀ hmR]
        have hdm : ((s / m : ℕ):ℝ) * (m:ℝ) = ((s / m * m : ℕ):ℝ) := by push_cast; ring
        by_cases hsq : s * s = K
        · have hnd : ¬ m ∣ s := fun hd => hint ⟨hsq, hd⟩
          have hlt : (s / m * m : ℕ) < s := by
            rcases Nat.lt_or_ge (s / m * m) s with h | h
            · exact h
            · have heq : s / m * m = s := le_antisymm (Nat.div_mul_le_self s m) h
              exact absurd (Dvd.intro_left (s / m) heq) hnd
          have hsqKs : Real.sqrt (K:ℝ) = (s:ℝ) := by
            rw [show ((K:ℕ):ℝ) = ((s:ℝ))^2 by rw [← hsq]; push_cast; ring]
            exact Real.sqrt_sq (by positivity)
          rw [hdm, hsqKs]
          exact_mod_cast hlt
        · have hle0 : s * s ≤ K := by
            have h0 := Nat.sqrt_le' K
            rwa [pow_two] at h0
          have hslt : s * s < K := lt_of_le_of_ne hle0 hsq
          have hlt2 : (s:ℝ) < Real.sqrt (K:ℝ) := by
            rw [Real.lt_sqrt (by positivity)]
            have hc : ((s * s : ℕ):ℝ) < ((K:ℕ):ℝ) := by exact_mod_cast hslt
            push_cast at hc
            nlinarith [hc]
          have hdm2 : (s / m * m : ℕ) ≤ s := Nat.div_mul_le_self s m
          have hc2 : ((s / m : ℕ):ℝ) * (m:ℝ) ≤ (s:ℝ) := by
            rw [hdm]
            exact_mod_cast hdm2
          linarith
      rw [eq_comm, Int.floor_eq_iff]
      constructor
      · rw [Int.cast_sub, Int.cast_neg, Int.cast_natCast, Int.cast_one]
        linarith
      · rw [Int.cast_sub, Int.cast_neg, Int.cast_natCast, Int.cast_one]
        linarith

theorem cmpDivSqrt_eq_compare (A D t : ℚ) (hD : 0 < D) :
    cmpDivSqrt A D t = compare ((A : ℝ) / Real.sqrt (D : ℝ)) (t : ℝ) := by
  have hDR : (0:ℝ) < (D:ℝ) := by exact_mod_cast hD
  have hsD : (0:ℝ) < Real.sqrt (D:ℝ) := Real.sqrt_pos.mpr hDR
  set x : ℝ := (A : ℝ) / Real.sqrt (D : ℝ) with hxdef
  have hA2 : ((A:ℝ)) = x * Real.sqrt (D:ℝ) := by
    rw [hxdef]
    field_simp
  have hx2 : x ^ 2 * (D:ℝ) = ((A:ℝ)) ^ 2 := by
    rw [hA2, pow_two, pow_two]
    have h := Real.mul_self_sqrt hDR.le
    nlinarith [h]
  have hxsign : 0 ≤ x ↔ 0 ≤ (A:ℝ) := by
    rw [hxdef, le_div_iff₀ hsD, zero_mul]
  rcases lt_trichotomy x ((t:ℝ)) with hxt | hxt | hxt
  · rw [(compare_lt_iff_lt).mpr hxt]
    unfold cmpDivSqrt
    by_cases h1 : A < 0 ∧ 0 ≤ t
    · rw [if_pos h1]
    · rw [if_neg h1]
      by_cases h2 : 0 ≤ A ∧ t < 0
      · exfalso
        have hx0 : 0 ≤ x := hxsign.mpr (by exact_mod_cast h2.1)
        have ht0 : ((t:ℝ)) < 0 := by exact_mod_cast h2.2
        linarith
      · rw [if_neg h2]
        by_cases h3 : 0 ≤ A
        · rw [if_pos h3, compare_lt_iff_lt]
          have hx0 : 0 ≤ x := hxsign.mpr (by exact_mod_cast h3)
          have hlt : ((A:ℝ))^2 < ((t:ℝ))^2 * (D:ℝ) := by
            nlinarith [hx2, hxt, hx0, hDR,
              mul_pos hDR (mul_pos (sub_pos.mpr hxt)
                (by linarith : (0:ℝ) < (t:ℝ) + x))]
          exact_mod_cast hlt
        · rw [if_neg h3, compare_lt_iff_lt]
          have hA0 : A < 0 := not_le.mp h3
          have ht0 : t < 0 := by
            by_contra hcon
            exact h1 ⟨hA0, not_lt.mp hcon⟩
          have hx0 : x < 0 := by
            by_contra hcon
            exact h3 (by exact_mod_cast hxsign.mp (not_lt.mp hcon))
          have ht0R : ((t:ℝ)) < 0 := by exact_mod_cast ht0
          have hlt : ((t:ℝ))^2 * (D:ℝ) < ((A:ℝ))^2 := by
            nlinarith [hx2, hxt, hx0, hDR,
              mul_pos hDR (mul_pos (sub_pos.mpr hxt)
                (by linarith : (0:ℝ) < -(t:ℝ) - x))]
          exact_mod_cast hlt
  · rw [(compare_eq_iff_eq).mpr hxt]
    unfold cmpDivSqrt
    by_cases h1 : A < 0 ∧ 0 ≤ t
    · exfalso
      have ht0 : (0:ℝ) ≤ (t:ℝ) := by exact_mod_cast h1.2
      have hx0 : 0 ≤ x := by rw [hxt]; exact ht0
      have : (0:ℝ) ≤ (A:ℝ) := hxsign.mp hx0
      have hA0 : ((A:ℝ)) < 0 := by exact_mod_cast h1.1
      linarith
    · rw [if_neg h1]
      by_cases h2 : 0 ≤ A ∧ t < 0
      · exfalso
        have hx0 : 0 ≤ x := hxsign.mpr (by exact_mod_cast h2.1)
        have ht0 : ((t:ℝ)) < 0 := by exact_mod_cast h2.2
        linarith [hxt]
      · rw [if_neg h2]
        by_cases h3 : 0 ≤ A
        · rw [if_pos h3, compare_eq_iff_eq]
          have heq : ((A:ℝ))^2 = ((t:ℝ))^2 * (D:ℝ) := by
            rw [← hx2, hxt]
          exact_mod_cast heq
        · rw [if_neg h3, compare_eq_iff_eq]
          have heq : ((t:ℝ))^2 * (D:ℝ) = ((A:ℝ))^2 := by
            rw [← hx2, hxt]
          exact_mod_cast heq
  · rw [(compare_gt_iff_gt).mpr hxt]
    unfold cmpDivSqrt
    by_cases h1 : A < 0 ∧ 0 ≤ t
    · exfalso
      have hA0 : ((A:ℝ)) < 0 := by exact_mod_cast h1.1
      have hx0 : x < 0 := by
        by_contra hcon
        exact absurd (hxsign.mp (not_lt.mp hcon)) (not_le.mpr hA0)
      have ht0 : (0:ℝ) ≤ (t:ℝ) := by exact_mod_cast h1.2
      linarith
    · rw [if_neg h1]
      by_cases h2 : 0 ≤ A ∧ t < 0
      · rw [if_pos h2]
      · rw [if_neg h2]
        by_cases h3 : 0 ≤ A
        · rw [if_pos h3, compare_gt_iff_gt]
          have hx0 : 0 ≤ x := hxsign.mpr (by exact_mod_cast h3)
          have ht0 : 0 ≤ t := by
            by_contra hcon
            exact h2 ⟨h3, not_le.mp hcon⟩
          have ht0R : (0:ℝ) ≤ (t:ℝ) := by exact_mod_cast ht0
          have hlt : ((t:ℝ))^2 * (D:ℝ) < ((A:ℝ))^2 := by
            nlinarith [hx2, hxt, hx0, hDR, ht0R,
              mul_pos hDR (mul_pos (sub_pos.mpr hxt)
                (by linarith : (0:ℝ) < x + (t:ℝ)))]
          exact_mod_cast hlt
        · rw [if_neg h3, compare_gt_iff_gt]
          have hA0 : A < 0 := not_le.mp h3
          have ht0 : t < 0 := by
            by_contra hcon
            exact h1 ⟨hA0, not_lt.mp hcon⟩
          have ht0R : ((t:ℝ)) < 0 := by exact_mod_cast ht0
          have hx0 : x < 0 := by
            by_contra hcon
            exact h3 (by exact_mod_cast hxsign.mp (not_lt.mp hcon))
          have hlt : ((A:ℝ))^2 < ((t:ℝ))^2 * (D:ℝ) := by
            nlinarith [hx2, hxt, hx0, hDR, ht0R,
              mul_pos hDR (mul_pos (sub_pos.mpr hxt)
                (by linarith : (0:ℝ) < -x - (t:ℝ)))]
          exact_mod_cast hlt

theorem roundHEDivSqrt_eq (A D : ℚ) (hD : 0 < D) :
    roundHEDivSqrt A D = roundHEreal ((A : ℝ) / Real.sqrt (D : ℝ)) := by
  set x : ℝ := (A : ℝ) / Real.sqrt (D : ℝ) with hxdef
  have hf : floorDivSqrt A D = ⌊x⌋ := floorDivSqrt_eq A D hD
  have hcast : ((mkRat (2 * floorDivSqrt A D + 1) 2 : ℚ) : ℝ) = (⌊x⌋:ℝ) + 1/2 := by
    rw [Rat.mkRat_eq_div, hf]
    push_cast
    ring
  simp only [roundHEDivSqrt]
  rw [cmpDivSqrt_eq_compare A D _ hD, hcast, hf]
  unfold roundHEreal
  rcases lt_trichotomy x ((⌊x⌋:ℝ) + 1/2) with h | h | h
  · rw [(compare_lt_iff_lt).mpr h, if_pos (by linarith : x - (⌊x⌋:ℝ) < 1/2)]
  · rw [(compare_eq_iff_eq).mpr h,
      if_neg (by linarith : ¬(x - (⌊x⌋:ℝ) < 1/2)),
      if_neg (by linarith : ¬((1:ℝ)/2 < x - (⌊x⌋:ℝ)))]
  · rw [(compare_gt_iff_gt).mpr h,
      if_neg (by linarith : ¬(x - (⌊x⌋:ℝ) < 1/2)),
      if_pos (by linarith : (1:ℝ)/2 < x - (⌊x⌋:ℝ))]

/-- The scaled sample covariance `n·Σxy − Σx·Σy` of a list of
observation pairs, written with plain list sums (equal to `qSxy`). -/
def covS (g : List (ℚ × ℚ)) : ℚ :=
  (g.length : ℚ) * (g.map (fun p => p.1 * p.2)).sum -
    (g.map Prod.fst).sum * (g.map Prod.snd).sum

/-- The scaled variance `n·Σx² − (Σx)²` of the first components. -/
def varFst (g : List (ℚ × ℚ)) : ℚ :=
  (g.length : ℚ) * (g.map (fun p => p.1 * p.1)).sum - (g.map Prod.fst).sum ^ 2

/-- The scaled variance of the second components. -/
def varSnd (g : List (ℚ × ℚ)) : ℚ :=
  (g.length : ℚ) * (g.map (fun p => p.2 * p.2)).sum - (g.map Prod.snd).sum ^ 2

theorem qSxy_eq_var (g : List (ℚ × ℚ)) : qSxy g = covS g := by
  rw [qSxy_eq]
  rfl

theorem qSxx_eq_var (g : List (ℚ × ℚ)) : qSxx g = varFst g := by
  rw [qSxx_eq]
  unfold varFst
  rw [List.map_map]
  rw [List.map_congr_left
    (fun (p : ℚ × ℚ) _ => by show p.1 ^ 2 = p.1 * p.1; ring :
      ∀ p ∈ g, ((fun v => v ^ 2) ∘ Prod.fst) p = p.1 * p.1)]

theorem qSyy_eq_var (g : List (ℚ × ℚ)) : qSyy g = varSnd g := by
  rw [qSyy_eq]
  unfold varSnd
  rw [List.map_map]
  rw [List.map_congr_left
    (fun (p : ℚ × ℚ) _ => by show p.2 ^ 2 = p.2 * p.2; ring :
      ∀ p ∈ g, ((fun v => v ^ 2) ∘ Prod.snd) p = p.2 * p.2)]

/-- Claim C4: in the per-track attendance/project correlation table, a
group with fewer than two pairwise-complete observations or with zero
variance in either variable reports the missing sentinel (never zero,
never an exception); any other group reports the Pearson correlation
`(n·Σxy − Σx·Σy) / √((n·Σx² − (Σx)²)(n·Σy² − (Σy)²))` times 100,
rounded half-to-even to one decimal. -/
theorem c4_corr_table (df : DF) (tbl : List (Cell × Cell)) (k e : Cell)
    (h : trackCorrTable df = some tbl) (hke : (k, e) ∈ tbl) :
    ((corrPairs df k).length < 2 ∨
      (∀ p ∈ corrPairs df k, ∀ q ∈ corrPairs df k, p.1 = q.1) ∨
      (∀ p ∈ corrPairs df k, ∀ q ∈ corrPairs df k, p.2 = q.2) →
      e = Cell.na) ∧
    (2 ≤ (corrPairs df k).length →
      (∃ p ∈ corrPairs df k, ∃ q ∈ corrPairs df k, p.1 ≠ q.1) →
      (∃ p ∈ corrPairs df k, ∃ q ∈ corrPairs df k, p.2 ≠ q.2) →
      ∃ v : ℚ, e = Cell.num v ∧
        (v : ℝ) * 10 =
          ((roundHEreal (1000 * (covS (corrPairs df k) : ℝ) /
            Real.sqrt ((varFst (corrPairs df k) : ℝ) *
              (varSnd (corrPairs df k) : ℝ))) : ℤ) : ℝ)) := by
  have hguard : Col.track ∈ df.cols ∧ Col.attendance ∈ df.cols ∧
      Col.projectScore ∈ df.cols := by
    by_contra hc
    rw [trackCorrTable, if_neg hc] at h
    cases h
  rw [trackCorrTable, if_pos hguard] at h
  cases h
  obtain ⟨k2, hk2, heq⟩ := List.mem_map.mp hke
  have hk : k2 = k := congrArg Prod.fst heq
  subst hk
  have he : corrCellOf (corrPairs df k2) = e := congrArg Prod.snd heq
  subst he
  set g := corrPairs df k2 with hgdef
  constructor
  · intro hcase
    rcases hcase with hlen | hconst | hconst
    · unfold corrCellOf
      rw [if_pos (Or.inl hlen)]
    · by_cases hlen : g.length < 2
      · unfold corrCellOf
        rw [if_pos (Or.inl hlen)]
      · have hg : g ≠ [] := by
          intro hnil
          rw [hnil] at hlen
          exact hlen (by norm_num)
        unfold corrCellOf
        rw [if_pos (Or.inr (Or.inl ((qSxx_eq_zero_iff g hg).mpr hconst)))]
    · by_cases hlen : g.length < 2
      · unfold corrCellOf
        rw [if_pos (Or.inl hlen)]
      · have hg : g ≠ [] := by
          intro hnil
          rw [hnil] at hlen
          exact hlen (by norm_num)
        unfold corrCellOf
        rw [if_pos (Or.inr (Or.inr ((qSyy_eq_zero_iff g hg).mpr hconst)))]
  · intro hlen hncx hncy
    have hg : g ≠ [] := by
      intro hnil
      rw [hnil] at hlen
      simp at hlen
    have hx0 : qSxx g ≠ 0 := by
      intro h0
      obtain ⟨p, hp, q, hq, hne⟩ := hncx
      exact hne ((qSxx_eq_zero_iff g hg).mp h0 p hp q hq)
    have hy0 : qSyy g ≠ 0 := by
      intro h0
      obtain ⟨p, hp, q, hq, hne⟩ := hncy
      exact hne ((qSyy_eq_zero_iff g hg).mp h0 p hp q hq)
    have hxpos : 0 < qSxx g := lt_of_le_of_ne (qSxx_nonneg g) (Ne.symm hx0)
    have hypos : 0 < qSyy g := lt_of_le_of_ne (qSyy_nonneg g) (Ne.symm hy0)
    have hcond : ¬(g.length < 2 ∨ qSxx g = 0 ∨ qSyy g = 0) := by
      push_neg
      exact ⟨hlen, hx0, hy0⟩
    refine ⟨mkRat (roundHEDivSqrt (qmulNat (qSxy g) 1000)
      (qmul (qSxx g) (qSyy g))) 10, ?_, ?_⟩
    · unfold corrCellOf
      rw [if_neg hcond]
    · have hD : 0 < qmul (qSxx g) (qSyy g) := by
        rw [qmul_eq]
        exact mul_pos hxpos hypos
      have hre := roundHEDivSqrt_eq (qmulNat (qSxy g) 1000)
        (qmul (qSxx g) (qSyy g)) hD
      have hv : ((mkRat (roundHEDivSqrt (qmulNat (qSxy g) 1000)
          (qmul (qSxx g) (qSyy g))) 10 : ℚ) : ℝ) * 10 =
          ((roundHEDivSqrt (qmulNat (qSxy g) 1000)
            (qmul (qSxx g) (qSyy g)) : ℤ) : ℝ) := by
        rw [mkRat_intCast_div]
        push_cast
        field_simp
      rw [hv, hre]
      have harg : ((qmulNat (qSxy g) 1000 : ℚ) : ℝ) /
          Real.sqrt ((qmul (qSxx g) (qSyy g) : ℚ) : ℝ) =
          1000 * (covS g : ℝ) /
            Real.sqrt ((varFst g : ℝ) * (varSnd g : ℝ)) := by
        rw [qmulNat_eq, qmul_eq, qSxy_eq_var, qSxx_eq_var, qSyy_eq_var]
        push_cast
        ring_nf
      rw [harg]

/-! ### Concrete witness frames -/

/-- The cleaned output of `c2df`. -/
def c2out : DF :=
  ⟨[Col.track, Col.passed],
    [(0, { naRow with track := .str "T", passed := .bool true }),
     (1, { naRow with track := .str "T", passed := .bool false }),
     (2, { naRow with track := .str "T", passed := .bool false })]⟩

/-- The third raw row of `c2df`. -/
def c2r : Row := { naRow with track := .str "T", passed := .str "bogus" }

/-- A frame with a score column holding `"80"`, `"90"` and the special
null `"NA"` in one track. -/
def c3df : DF :=
  ⟨[Col.track, Col.math],
    [(0, { naRow with track := .str "T", math := .str "80" }),
     (1, { naRow with track := .str "T", math := .str "90" }),
     (2, { naRow with track := .str "T", math := .str "NA" })]⟩

/-- The cleaned output of `c3df`: the missing score is imputed with the
track mean 85.0. -/
def c3out : DF :=
  ⟨[Col.track, Col.math],
    [(0, { naRow with track := .str "T", math := .num 80 }),
     (1, { naRow with track := .str "T", math := .num 90 }),
     (2, { naRow with track := .str "T", math := .num 85 })]⟩

/-- The third raw row of `c3df`. -/
def c3r : Row := { naRow with track := .str "T", math := .str "NA" }

/-- A cleaned frame whose only track group has two observations with
constant attendance (zero variance). -/
def c4df : DF :=
  ⟨[Col.track, Col.attendance, Col.projectScore],
    [(0, { naRow with track := .str "T", attendance := .num 50, projectScore := .num 10 }),
     (1, { naRow with track := .str "T", attendance := .num 50, projectScore := .num 20 })]⟩

/-- Shared first row of the two C6 witness frames. -/
def c6a : Row := { naRow with track := .str "T", passed := .str "Y" }

/-- The varied row of the first C6 frame. -/
def c6p1 : ℕ × Row := (1, { naRow with track := .str "U", passed := .str "Y" })

/-- The varied row of the second C6 frame: same index and track, a
different raw `Passed (Y/N)` value. -/
def c6p2 : ℕ × Row := (1, { naRow with track := .str "U", passed := .str "N" })

/-- Cleaned output of the first C6 frame. -/
def c6o1 : DF :=
  ⟨[Col.track, Col.passed],
    [(0, { naRow with track := .str "T", passed := .bool true }),
     (1, { naRow with track := .str "U", passed := .bool true })]⟩

/-- Cleaned output of the second C6 frame. -/
def c6o2 : DF :=
  ⟨[Col.track, Col.passed],
    [(0, { naRow with track := .str "T", passed := .bool true }),
     (1, { naRow with track := .str "U", passed := .bool false })]⟩

/-- A row with identity key (2000, 1, "T"). -/
def c7r0 : Row := { naRow with studentID := .int 2000, term := .int 1, track := .str "T" }

/-- A row with identity key (1000, 1, "T"), stored twice in `c7df`. -/
def c7r1 : Row := { naRow with studentID := .int 1000, term := .int 1, track := .str "T" }

/-- A frame with out-of-order indices and one duplicated identity key. -/
def c7df : DF :=
  ⟨[Col.studentID, Col.term, Col.track], [(1, c7r1), (0, c7r0), (2, c7r1)]⟩

/-- `drop_duplicates` of `c7df`: index-sorted, later duplicate dropped. -/
def c7out : DF :=
  ⟨[Col.studentID, Col.term, Col.track], [(0, c7r0), (1, c7r1)]⟩

/-- A frame whose `StudentID` column holds `"0123"` and `"1234"`. -/
def c8df : DF :=
  ⟨[Col.studentID],
    [(0, { naRow with studentID := .str "0123" }),
     (1, { naRow with studentID := .str "1234" })]⟩

/-- The cleaned output of `c8df`: the `"0123"` record is dropped. -/
def c8out : DF :=
  ⟨[Col.studentID], [(1, { naRow with studentID := .int 1234 })]⟩

/-! ### Witnesses: each claim theorem applied at a concrete input -/

/-- C1's invariants hold of the concrete run `cleanDf c2df`. -/
theorem c1_cleaning_invariants_witness :
    cleanDf c2df = some c2out ∧
    (c2out.cols = c2df.cols ∧
      (c2out.rows.map Prod.fst).Sublist (c2df.rows.map Prod.fst) ∧
      ∀ p ∈ c2out.rows,
        (∀ c ∈ c2out.cols, p.2.get c ≠ .na) ∧
        (∀ c ∈ ([.math, .english, .science, .history, .attendance, .projectScore] : List Col),
          c ∈ c2out.cols → ∃ q, p.2.get c = .num q ∧ 0 ≤ q ∧ q ≤ 100) ∧
        (Col.term ∈ c2out.cols → p.2.term = .int 1 ∨ p.2.term = .int 2) ∧
        (Col.className ∈ c2out.cols → ∃ s, p.2.className = .str s ∧ classFmt s = true) ∧
        (Col.cohort ∈ c2out.cols → ∃ s, p.2.cohort = .str s ∧ cohortFmt s = true)) :=
  ⟨by decide, c1_cleaning_invariants c2df c2out (by decide)⟩

/-- C2's mode imputation at the concrete tie `c2df`. -/
theorem c2_bool_mode_imputation_witness :
    cleanDf c2df = some c2out ∧
    ((decodedVals c2df Col.passed (normStrCell (replaceCell c2r.track)) ≠ [] →
      ∀ s, (2, s) ∈ c2out.rows → ∃ b : Bool,
        s.get Col.passed = .bool b ∧
        (decodedVals c2df Col.passed (normStrCell (replaceCell c2r.track))).count (!b) ≤
          (decodedVals c2df Col.passed (normStrCell (replaceCell c2r.track))).count b ∧
        ((decodedVals c2df Col.passed (normStrCell (replaceCell c2r.track))).count false =
          (decodedVals c2df Col.passed (normStrCell (replaceCell c2r.track))).count true →
          b = false)) ∧
     (decodedVals c2df Col.passed (normStrCell (replaceCell c2r.track)) = [] →
       2 ∉ c2out.rows.map Prod.fst)) :=
  ⟨by decide,
    c2_bool_mode_imputation c2df c2out (by decide) Col.passed (by decide) (by decide)
      (by decide) 2 c2r (by decide) (by decide) (by decide)⟩

/-- C3's mean imputation at the concrete frame `c3df`. -/
theorem c3_score_mean_imputation_witness :
    cleanDf c3df = some c3out ∧
    ((validVals c3df Col.math (normStrCell (replaceCell c3r.track)) ≠ [] →
      ∀ s, (2, s) ∈ c3out.rows →
        s.get Col.math = .num (round1
          ((validVals c3df Col.math (normStrCell (replaceCell c3r.track))).sum /
            (validVals c3df Col.math (normStrCell (replaceCell c3r.track))).length))) ∧
     (validVals c3df Col.math (normStrCell (replaceCell c3r.track)) = [] →
       2 ∉ c3out.rows.map Prod.fst)) :=
  ⟨by decide,
    c3_score_mean_imputation c3df c3out (by decide) Col.math (by decide) (by decide)
      (by decide) 2 c3r (by decide) (by decide) (by decide)⟩

/-- C4's missing sentinel at a concrete zero-variance group. -/
theorem c4_corr_table_witness :
    trackCorrTable c4df = some [(Cell.str "T", Cell.na)] ∧
    (∀ p ∈ corrPairs c4df (Cell.str "T"), ∀ q ∈ corrPairs c4df (Cell.str "T"),
      p.1 = q.1) ∧
    Cell.na = Cell.na :=
  ⟨by decide, by decide,
    (c4_corr_table c4df [(Cell.str "T", Cell.na)] (Cell.str "T") Cell.na (by decide)
      (by decide)).1 (Or.inr (Or.inl (by decide)))⟩

/-- C5's stage skip at a concrete frame lacking the score column. -/
theorem c5_absent_column_tolerance_witness :
    Col.math ∉ c5df.cols ∧ scoreStep c5df Col.math = some c5df :=
  ⟨by decide, (c5_absent_column_tolerance c5df Col.math (by decide)).2.2.1⟩

/-- C6's noninterference at two concrete frames differing in one row of
track `"U"`: the track-`"T"` records agree. -/
theorem c6_imputation_group_local_witness :
    cleanDf ⟨[Col.track, Col.passed], [(0, c6a)] ++ c6p1 :: []⟩ = some c6o1 ∧
    cleanDf ⟨[Col.track, Col.passed], [(0, c6a)] ++ c6p2 :: []⟩ = some c6o2 ∧
    c6o1.rows.filter
        (fun q => decide (q.2.track ≠ normStrCell (replaceCell c6p1.2.track))) =
      c6o2.rows.filter
        (fun q => decide (q.2.track ≠ normStrCell (replaceCell c6p1.2.track))) :=
  ⟨by decide, by decide,
    c6_imputation_group_local [Col.track, Col.passed] [(0, c6a)] [] c6p1 c6p2 c6o1 c6o2
      (by decide) (by decide) (by decide) (by decide) (by decide)⟩

/-- C7's idempotence and keep-first at a concrete duplicated frame. -/
theorem c7_dedup_idempotent_first_witness :
    dropDuplicates c7df = some c7out ∧
    (dropDuplicates c7out = some c7out ∧
      (Col.studentID ∈ c7df.cols ∧ Col.term ∈ c7df.cols →
        ∀ k, c7out.rows.filter (fun p => decide (dupKey p.2 = k)) =
          ((sortIdx c7df.rows).filter (fun p => decide (dupKey p.2 = k))).take 1)) :=
  ⟨by decide, c7_dedup_idempotent_first c7df c7out (by decide)⟩

/-- C8's leading-zero drop at the concrete frame `c8df`. -/
theorem c8_leading_zero_studentID_witness :
    cleanDf c8df = some c8out ∧
    (intCastCell (replaceCell (Cell.str "0123")) = some (Cell.int 123) ∧
      sidCheckCell (Cell.int 123) = Cell.na ∧
      (∀ p ∈ c8out.rows, ∃ n, p.2.studentID = .int n ∧ 1000 ≤ n ∧ n ≤ 9999) ∧
      (∀ i r, (i, r) ∈ c8df.rows → r.studentID = .str "0123" →
        i ∉ c8out.rows.map Prod.fst)) :=
  ⟨by decide, c8_leading_zero_studentID c8df c8out (by decide) (by decide) (by decide)⟩

/-- C10's skip at a concrete frame lacking the identity columns. -/
theorem c10_dedup_skip_witness :
    (Col.studentID ∉ c5df.cols ∨ Col.term ∉ c5df.cols) ∧
    dropDuplicates c5df = some c5df :=
  ⟨Or.inl (by decide), c10_dedup_skip c5df (Or.inl (by decide))⟩

end MTDR
